import Mathlib

/-!
Verification of the agent-based-modeling repository: a shallow embedding of
the infection model (infection_model.py), the Schelling segregation model
(schelling_model.py) and the shared list utility (list_funcs.py), together
with theorems settling the specification claims.

Python dictionaries are embedded as insertion-ordered association lists,
Python lists as Lean lists, machine integers as unbounded Int/Nat (Python
integers are unbounded), rationals stand in for Python floats (all the
ratios and random draws are compared, never rounded), and every fallible
operation (dict KeyError, random.choice on an empty list) returns Option.
Randomness (random.random, random.choice, random.shuffle) is modelled by
explicit oracles: a rational draw per agent, a choice index per agent
(taken modulo the candidate count), and the shuffled grid passed as input.
-/

/-- A grid coordinate: Python tuple of two ints. -/
abbrev Coord : Type := ℤ × ℤ

/-- Python `int()` on a rational: truncation toward zero. -/
def pyInt (q : ℚ) : ℤ := if q < 0 then -⌊-q⌋ else ⌊q⌋

/-- Python slice `l[:n]` (negative `n` counts from the end). -/
def pySliceTo (l : List α) (n : ℤ) : List α :=
  if n < 0 then l.take (l.length - (-n).toNat) else l.take n.toNat

/-- Python slice `l[n:]` (negative `n` counts from the end). -/
def pySliceFrom (l : List α) (n : ℤ) : List α :=
  if n < 0 then l.drop (l.length - (-n).toNat) else l.drop n.toNat

/-- Python `list.remove` (first occurrence).  At every call site in the
repository the element is provably present, so the `ValueError` branch is
unreachable and the function is total. -/
def pyRemove [DecidableEq α] : List α → α → List α
  | [], _ => []
  | a :: rest, b => if a = b then rest else a :: pyRemove rest b

/-- Python `l[i::k]` for `i ≥ 0`, `k ≥ 1`: after dropping the first `i`
elements, the elements whose offset is a multiple of `k`. -/
def pyStride (l : List α) (i k : Nat) : List α :=
  ((l.drop i).enum.filter (fun p => p.1 % k == 0)).map Prod.snd

/-- `list_funcs.intersection`: `temp = set(ls1); [value for value in ls2 if
value in temp]`.  Membership in `set(ls1)` is membership in `ls1`. -/
def intersection [DecidableEq α] (ls1 ls2 : List α) : List α :=
  ls2.filter (fun v => decide (v ∈ ls1))

/-- Python `range(a, b)` over unbounded integers. -/
def rangeZ (a b : ℤ) : List ℤ := (List.range (b - a).toNat).map (fun i : ℕ => a + (i : ℤ))

/-- A Python dictionary keyed by coordinates with integer values, embedded
as an insertion-ordered association list with (invariantly) distinct keys. -/
abbrev Dict : Type := List (Coord × Nat)

/-- The keys of a dictionary, in insertion order (Python iteration order). -/
def keys (d : Dict) : List Coord := d.map Prod.fst

/-- Python `d[k]` as a lookup: `none` models a `KeyError`. -/
def dictGet? : Dict → Coord → Option Nat
  | [], _ => none
  | (k, v) :: rest, key => if k = key then some v else dictGet? rest key

/-- Python `d[k] = v`: update an existing key in place, else append. -/
def dictSet : Dict → Coord → Nat → Dict
  | [], key, val => [(key, val)]
  | (k, v) :: rest, key, val =>
    if k = key then (k, val) :: rest else (k, v) :: dictSet rest key val

/-- Removal of a key (first occurrence), total helper for `dictDel?`. -/
def dictDel : Dict → Coord → Dict
  | [], _ => []
  | (k, v) :: rest, key => if k = key then rest else (k, v) :: dictDel rest key

/-- Python `del d[k]`: `none` models the `KeyError` on an absent key. -/
def dictDel? (d : Dict) (key : Coord) : Option Dict :=
  if key ∈ keys d then some (dictDel d key) else none

/-- Constructor parameters of `VirusModel` (the `ID` is only used for file
names by the plotting code and is omitted). -/
structure Params where
  height : Nat
  width : Nat
  mortality : ℚ
  cycle_time : Nat
  ratio_empty : ℚ
  ratio_infected : ℚ
  num_iter : Nat
  max_range : Nat

/-- The mutable state of a `VirusModel`: `healthy_agents`, `infected_agents`,
`empty_spots`, plus the running total of recorded deaths (the cumulative sum
of the per-iteration `n_deaths` counters appended to `deaths_per_iter`). -/
structure VirusState where
  healthy : Dict
  infected : Dict
  empty_spots : List Coord
  deaths : Nat
deriving DecidableEq

/-- `list(itertools.product(range(0, height), range(0, width)))`. -/
def virusGrid (p : Params) : List Coord :=
  (rangeZ 0 (p.height : ℤ)) ×ˢ (rangeZ 0 (p.width : ℤ))

/-- `self.n_empty = int(self.ratio_empty * len(self.grid))`. -/
def n_empty (p : Params) (grid : List Coord) : ℤ :=
  pyInt (p.ratio_empty * (grid.length : ℚ))

/-- `self.empty_spots = self.grid[:self.n_empty]`. -/
def empty_spots_init (p : Params) (grid : List Coord) : List Coord :=
  pySliceTo grid (n_empty p grid)

/-- `self.inhabited = self.grid[self.n_empty:]`. -/
def inhabited (p : Params) (grid : List Coord) : List Coord :=
  pySliceFrom grid (n_empty p grid)

/-- `self.n_infected = int(self.ratio_infected * len(self.inhabited))`. -/
def n_infected (p : Params) (grid : List Coord) : ℤ :=
  pyInt (p.ratio_infected * ((inhabited p grid).length : ℚ))

/-- `VirusModel.populate`, with the shuffled grid passed explicitly (the
model of `random.shuffle`).  Starts from empty agent dictionaries, as in
`__init__`: `healthy = inhabited[n_infected:]`, `infected =
inhabited[:n_infected]`, each mapped to day-count 0. -/
def populate (p : Params) (shuffled : List Coord) : VirusState :=
  { healthy := (pySliceFrom (inhabited p shuffled) (n_infected p shuffled)).map
      (fun c => (c, 0)),
    infected := (pySliceTo (inhabited p shuffled) (n_infected p shuffled)).map
      (fun c => (c, 0)),
    empty_spots := empty_spots_init p shuffled,
    deaths := 0 }

/-- The neighbour list built by `VirusModel.contracted` (and Schelling's
`is_unsatisfied`): `itertools.product(range(x-1, x+2), range(y-1, y+2))`
followed by `neighbors.remove((x, y))`. -/
def neighborsContract (c : Coord) : List Coord :=
  pyRemove ((rangeZ (c.1 - 1) (c.1 + 2)) ×ˢ (rangeZ (c.2 - 1) (c.2 + 2))) c

/-- The neighbour list built by `VirusModel.move_to_empty`:
`itertools.product(range(x - max_range, x + max_range + 1), range(y -
max_range, y + max_range + 1))`; the `remove((x, y))` is commented out in
the source, so the agent's own coordinate stays in the list. -/
def neighborsMove (max_range : Nat) (c : Coord) : List Coord :=
  (rangeZ (c.1 - (max_range : ℤ)) (c.1 + ((max_range : ℤ) + 1))) ×ˢ
    (rangeZ (c.2 - (max_range : ℤ)) (c.2 + ((max_range : ℤ) + 1)))

/-- `VirusModel.contracted`: returns whether the agent caught the virus,
together with the mutated state.  `none` models the `KeyError` raised by
`del self.healthy_agents[agent]` when the agent is not healthy. -/
def contracted (agent : Coord) (s : VirusState) : Option (Bool × VirusState) :=
  let inf_neighbors := intersection (neighborsContract agent) (keys s.infected)
  if inf_neighbors.length > 0 then
    match dictDel? s.healthy agent with
    | none => none
    | some h => some (true, { s with infected := dictSet s.infected agent 0, healthy := h })
  else some (false, s)

/-- `VirusModel.recovered`: returns whether the agent recovered, together
with the mutated state.  `none` models the `KeyError` on
`self.infected_agents[agent]`. -/
def recovered (cycle_time : Nat) (agent : Coord) (s : VirusState) :
    Option (Bool × VirusState) :=
  match dictGet? s.infected agent with
  | none => none
  | some days_ill =>
    if days_ill > cycle_time then
      some (true, { s with healthy := dictSet s.healthy agent 0,
                           infected := dictDel s.infected agent })
    else
      some (false, { s with infected := dictSet s.infected agent (days_ill + 1) })

/-- `VirusModel.move_to_empty`.  `choice` is the random index drawn by
`random.choice` (taken modulo the candidate count); `none` models the
`KeyError` on a missing agent.  `empty_spots.remove(new_spot)` cannot fail
because `new_spot` is drawn from a sublist of `empty_spots`. -/
def move_to_empty (max_range : Nat) (choice : Nat) (agent : Coord) (inf : Bool)
    (s : VirusState) : Option VirusState :=
  let neighbors := intersection (neighborsMove max_range agent) s.empty_spots
  if h : neighbors.length > 0 then
    let new_spot := neighbors.get ⟨choice % neighbors.length, Nat.mod_lt _ h⟩
    match inf with
    | true =>
      match dictGet? s.infected agent with
      | none => none
      | some v =>
        some { s with infected := dictDel (dictSet s.infected new_spot v) agent,
                      empty_spots := pyRemove s.empty_spots new_spot ++ [agent] }
    | false =>
      match dictDel? (dictSet s.healthy new_spot 0) agent with
      | none => none
      | some h2 =>
        some { s with healthy := h2,
                      empty_spots := pyRemove s.empty_spots new_spot ++ [agent] }
  else
    some s

/-- The body of the first loop of `VirusModel.update` for one agent of the
snapshot `old_i_agents`: mortality roll, else recovery check, then the
relocation attempt. -/
def stepInfected (p : Params) (roll : ℚ) (choice : Nat) (agent : Coord)
    (s : VirusState) : Option VirusState :=
  if roll ≤ p.mortality then
    match dictDel? s.infected agent with
    | none => none
    | some d => some { s with infected := d, deaths := s.deaths + 1 }
  else
    match recovered p.cycle_time agent s with
    | none => none
    | some (true, s1) => move_to_empty p.max_range choice agent false s1
    | some (false, s1) => move_to_empty p.max_range choice agent true s1

/-- The body of the second loop of `VirusModel.update` for one agent of the
snapshot `old_h_agents`: contraction check, then the relocation attempt. -/
def stepHealthy (p : Params) (choice : Nat) (agent : Coord) (s : VirusState) :
    Option VirusState :=
  match contracted agent s with
  | none => none
  | some (true, s1) => move_to_empty p.max_range choice agent true s1
  | some (false, s1) => move_to_empty p.max_range choice agent false s1

/-- The first loop of an update iteration, over the keys of the snapshot
`old_i_agents`; `rolls i` and `choices i` are the random draws consumed by
the `i`-th processed agent. -/
def infectedPhase (p : Params) (rolls : Nat → ℚ) (choices : Nat → Nat) :
    List Coord → Nat → VirusState → Option VirusState
  | [], _, s => some s
  | a :: rest, i, s =>
    match stepInfected p (rolls i) (choices i) a s with
    | none => none
    | some s1 => infectedPhase p rolls choices rest (i + 1) s1

/-- The second loop of an update iteration, over the keys of the snapshot
`old_h_agents`. -/
def healthyPhase (p : Params) (choices : Nat → Nat) :
    List Coord → Nat → VirusState → Option VirusState
  | [], _, s => some s
  | a :: rest, i, s =>
    match stepHealthy p (choices i) a s with
    | none => none
    | some s1 => healthyPhase p choices rest (i + 1) s1

/-- One iteration of the loop in `VirusModel.update`: snapshots of both
agent dictionaries are taken, the infected snapshot is processed first,
then the healthy snapshot. -/
def iteration (p : Params) (rolls : Nat → ℚ) (ci ch : Nat → Nat)
    (s : VirusState) : Option VirusState :=
  match infectedPhase p rolls ci (keys s.infected) 0 s with
  | none => none
  | some s1 => healthyPhase p ch (keys s.healthy) 0 s1

/-- The iteration loop of `VirusModel.update` (plotting omitted): runs up to
the remaining iteration budget, breaking as soon as the infected dictionary
is empty at the end of an iteration.  Returns the final state and the
number of iterations executed. -/
def updateLoop (p : Params) (rolls : Nat → Nat → ℚ) (ci ch : Nat → Nat → Nat) :
    Nat → Nat → VirusState → Option (VirusState × Nat)
  | 0, count, s => some (s, count)
  | k + 1, count, s =>
    match iteration p (rolls count) (ci count) (ch count) s with
    | none => none
    | some s1 =>
      if keys s1.infected = [] then some (s1, count + 1)
      else updateLoop p rolls ci ch k (count + 1) s1

/-- `VirusModel.update` (metric lists and plotting omitted; the cumulative
death count lives in the state). -/
def update (p : Params) (rolls : Nat → Nat → ℚ) (ci ch : Nat → Nat → Nat)
    (s : VirusState) : Option (VirusState × Nat) :=
  updateLoop p rolls ci ch p.num_iter 0 s

/-- The mutable state of a `Schelling` model: `agents` maps an occupied
house to the race id of its occupant, `empty_houses` lists the vacant
houses. -/
structure SchellingState where
  agents : Dict
  empty_houses : List Coord
deriving DecidableEq

/-- `list(itertools.product(range(self.width), range(self.height)))`. -/
def schellingGrid (width height : Nat) : List Coord :=
  (rangeZ 0 (width : ℤ)) ×ˢ (rangeZ 0 (height : ℤ))

/-- Python `dict(pairs)`: first insertion fixes the position of a key,
later pairs with the same key update the value in place. -/
def dictOfPairs (l : List (Coord × Nat)) : Dict :=
  l.foldl (fun d kv => dictSet d kv.1 kv.2) []

/-- `Schelling.populate`, with the shuffled grid passed explicitly.  Race
`i+1` (for `i in range(num_races)`) occupies the stride `inhabited[i::num_races]`,
successively merged into the agents dictionary. -/
def schellingPopulate (ratio_empty : ℚ) (num_races : Nat) (shuffled : List Coord) :
    SchellingState :=
  let n_empty : ℤ := pyInt (ratio_empty * (shuffled.length : ℚ))
  let empty_houses := pySliceTo shuffled n_empty
  let inh := pySliceFrom shuffled n_empty
  let agents := (List.range num_races).foldl
    (fun d i => dictOfPairs (d ++ dictOfPairs ((pyStride inh i num_races).map
      (fun c => (c, i + 1))))) []
  { agents := agents, empty_houses := empty_houses }

/-- `Schelling.is_unsatisfied`: `none` models the `KeyError` on
`self.agents[(x, y)]`; the neighbour lookups inside the loop cannot fail
because the intersection keeps only keys of `agents`. -/
def is_unsatisfied (tolerance : ℚ) (s : SchellingState) (x y : ℤ) : Option Bool :=
  match dictGet? s.agents (x, y) with
  | none => none
  | some race =>
    let neighbors := intersection (neighborsContract (x, y)) (keys s.agents)
    let num_similar := (neighbors.filter
      (fun n => decide (dictGet? s.agents n = some race))).length
    let num_different := (neighbors.filter
      (fun n => ! decide (dictGet? s.agents n = some race))).length
    if num_different + num_similar = 0 then some false
    else some (((num_similar : ℚ) / ((num_similar : ℚ) + (num_different : ℚ))) < tolerance)

/-- `Schelling.move_to_empty`: `none` models the `KeyError` on
`self.agents[agent]` or the `IndexError` raised by `random.choice` on an
empty `empty_houses` list. -/
def schelling_move_to_empty (choice : Nat) (key : Coord) (s : SchellingState) :
    Option SchellingState :=
  match dictGet? s.agents key with
  | none => none
  | some agent_race =>
    if h : s.empty_houses.length > 0 then
      let new_house := s.empty_houses.get ⟨choice % s.empty_houses.length, Nat.mod_lt _ h⟩
      some { agents := dictDel (dictSet s.agents new_house agent_race) key,
             empty_houses := pyRemove s.empty_houses new_house ++ [key] }
    else none

/-- The body of one iteration of `Schelling.update` for one snapshot agent:
the dissatisfaction check and, if unsatisfied, the move plus the
`n_changes` increment. -/
def schellingStep (tol : ℚ) (choice : Nat) (agent : Coord)
    (sn : SchellingState × Nat) : Option (SchellingState × Nat) :=
  match is_unsatisfied tol sn.1 agent.1 agent.2 with
  | none => none
  | some true =>
    match schelling_move_to_empty choice agent sn.1 with
    | none => none
    | some s1 => some (s1, sn.2 + 1)
  | some false => some sn

/-- The loop of one iteration of `Schelling.update` over the snapshot
`old_agents`, threading the state and the `n_changes` counter. -/
def schellingPhase (tol : ℚ) (choices : Nat → Nat) :
    List Coord → Nat → (SchellingState × Nat) → Option (SchellingState × Nat)
  | [], _, sn => some sn
  | a :: rest, i, sn =>
    match schellingStep tol (choices i) a sn with
    | none => none
    | some sn1 => schellingPhase tol choices rest (i + 1) sn1

/-- One iteration of `Schelling.update`: process a snapshot of the agents
dictionary, returning the new state and the number of moves made. -/
def schellingIter (tol : ℚ) (choices : Nat → Nat) (s : SchellingState) :
    Option (SchellingState × Nat) :=
  schellingPhase tol choices (keys s.agents) 0 (s, 0)

/-- The state invariant of the infection model: the three coordinate
collections have no internal repetition, are pairwise disjoint, and
together with the cumulative death count account for every one of the
`width * height` grid cells. -/
def WF (p : Params) (s : VirusState) : Prop :=
  (keys s.healthy).Nodup ∧ (keys s.infected).Nodup ∧ s.empty_spots.Nodup ∧
  (∀ c ∈ keys s.healthy, c ∉ keys s.infected) ∧
  (∀ c ∈ keys s.healthy, c ∉ s.empty_spots) ∧
  (∀ c ∈ keys s.infected, c ∉ s.empty_spots) ∧
  s.healthy.length + s.infected.length + s.empty_spots.length + s.deaths
    = p.width * p.height

instance (p : Params) (s : VirusState) : Decidable (WF p s) := by
  unfold WF
  infer_instance

/-- Parameters used to refute claim C5: an empty-ratio of 2, outside [0,1]. -/
def pC5 : Params :=
  { height := 2, width := 2, mortality := 0, cycle_time := 0, ratio_empty := 2,
    ratio_infected := 0, num_iter := 1, max_range := 1 }

/-- Parameters used to refute claim C6: a 10-cell grid, empty-ratio 1/4,
infected-ratio 1/2. -/
def pC6 : Params :=
  { height := 2, width := 5, mortality := 0, cycle_time := 0, ratio_empty := 1/4,
    ratio_infected := 1/2, num_iter := 1, max_range := 1 }

/-- Parameters used to refute claim C2 (mortality 1 kills on a roll of 1). -/
def pC2 : Params :=
  { height := 1, width := 2, mortality := 1, cycle_time := 0, ratio_empty := 0,
    ratio_infected := 0, num_iter := 1, max_range := 1 }

/-- A state with one infected agent at (0,0) and one empty cell at (0,1). -/
def sC2 : VirusState :=
  { healthy := [], infected := [((0, 0), 0)], empty_spots := [(0, 1)], deaths := 0 }

/-- A state with one infected agent at (0,0), day-count 5, and one empty
neighbour cell at (1,1). -/
def sC8 : VirusState :=
  { healthy := [], infected := [((0, 0), 5)], empty_spots := [(1, 1)], deaths := 0 }

/-- Parameters for the concrete instance of claim C1. -/
def pC1 : Params :=
  { height := 1, width := 1, mortality := 0, cycle_time := 0, ratio_empty := 0,
    ratio_infected := 1, num_iter := 1, max_range := 1 }

/-- A well-formed one-cell state with a single infected agent. -/
def sC1 : VirusState :=
  { healthy := [], infected := [((0, 0), 0)], empty_spots := [], deaths := 0 }

/-- The state after one iteration from `sC1`: the agent survives (mortality
0), does not recover (0 > 0 is false), its day-count becomes 1, and it
cannot move (no empty cell). -/
def sC1f : VirusState :=
  { healthy := [], infected := [((0, 0), 1)], empty_spots := [], deaths := 0 }

/-- A fully occupied 1-by-2 Schelling state: two mutually unhappy agents of
different races and no empty house. -/
def s10 : SchellingState :=
  { agents := [(((0 : ℤ), (0 : ℤ)), 1), ((0, 1), 2)], empty_houses := [] }

/-- Parameters for the concrete instance of claim C7 (1-by-2 grid). -/
def p7 : Params :=
  { height := 1, width := 2, mortality := 0, cycle_time := 0, ratio_empty := 0,
    ratio_infected := 0, num_iter := 1, max_range := 1 }

/-- A state with a healthy agent at (0,0) and an infected neighbour at (1,1). -/
def s7 : VirusState :=
  { healthy := [((0, 0), 0)], infected := [((1, 1), 1)], empty_spots := [],
    deaths := 0 }

/-- The state produced when the healthy agent at (0,0) of `s7` contracts. -/
def s7c : VirusState :=
  { healthy := [], infected := [((1, 1), 1), ((0, 0), 0)], empty_spots := [],
    deaths := 0 }

/-- A state with no infected agent at all: the healthy agent at (0,0) does
not contract. -/
def s7e : VirusState :=
  { healthy := [((0, 0), 0)], infected := [], empty_spots := [], deaths := 0 }

/-- Parameters for the concrete instance of claim C9: mortality 1 on a
1-by-3 grid with a three-iteration budget. -/
def p9 : Params :=
  { height := 1, width := 3, mortality := 1, cycle_time := 0, ratio_empty := 0,
    ratio_infected := 0, num_iter := 3, max_range := 1 }

/-- One healthy agent, one infected agent, one empty cell. -/
def s9 : VirusState :=
  { healthy := [((0, 0), 0)], infected := [((0, 2), 0)], empty_spots := [(0, 1)],
    deaths := 0 }

section PyLemmas

variable {α : Type _} [DecidableEq α]

theorem pySlice_append (l : List α) (n : ℤ) :
    pySliceTo l n ++ pySliceFrom l n = l := by
  unfold pySliceTo pySliceFrom
  split <;> exact List.take_append_drop _ _

theorem length_pySliceTo_add_length_pySliceFrom (l : List α) (n : ℤ) :
    (pySliceTo l n).length + (pySliceFrom l n).length = l.length := by
  have h := congrArg List.length (pySlice_append l n)
  simpa [List.length_append] using h

theorem mem_pyRemove {l : List α} {a b : α} (h : b ∈ pyRemove l a) : b ∈ l := by
  induction l with
  | nil => simpa [pyRemove] using h
  | cons x rest ih =>
    by_cases hx : x = a
    · simp only [pyRemove, if_pos hx] at h
      exact List.mem_cons_of_mem _ h
    · simp only [pyRemove, if_neg hx, List.mem_cons] at h
      rcases h with h | h
      · exact h ▸ List.mem_cons_self _ _
      · exact List.mem_cons_of_mem _ (ih h)

theorem mem_pyRemove_of_ne {l : List α} {a b : α} (hne : b ≠ a) :
    b ∈ pyRemove l a ↔ b ∈ l := by
  induction l with
  | nil => simp [pyRemove]
  | cons x rest ih =>
    by_cases hx : x = a
    · subst hx
      simp only [pyRemove, if_pos rfl, List.mem_cons]
      constructor
      · exact Or.inr
      · rintro (h | h)
        · exact absurd h hne
        · exact h
    · simp only [pyRemove, if_neg hx, List.mem_cons, ih]

theorem nodup_pyRemove {l : List α} (a : α) (h : l.Nodup) :
    (pyRemove l a).Nodup := by
  induction l with
  | nil => simpa [pyRemove] using h
  | cons x rest ih =>
    rcases List.nodup_cons.mp h with ⟨hx, hrest⟩
    by_cases hxa : x = a
    · simpa [pyRemove, hxa] using hrest
    · simp only [pyRemove, if_neg hxa]
      exact List.nodup_cons.mpr ⟨fun hmem => hx (mem_pyRemove hmem), ih hrest⟩

theorem not_mem_pyRemove {l : List α} {a : α} (h : l.Nodup) :
    a ∉ pyRemove l a := by
  induction l with
  | nil => simp [pyRemove]
  | cons x rest ih =>
    rcases List.nodup_cons.mp h with ⟨hx, hrest⟩
    by_cases hxa : x = a
    · subst hxa
      simpa [pyRemove] using hx
    · simp only [pyRemove, if_neg hxa, List.mem_cons]
      rintro (h | h)
      · exact hxa h.symm
      · exact ih hrest h

theorem length_pyRemove_of_mem {l : List α} {a : α} (h : a ∈ l) :
    (pyRemove l a).length + 1 = l.length := by
  induction l with
  | nil => cases h
  | cons x rest ih =>
    by_cases hx : x = a
    · simp [pyRemove, hx]
    · rcases List.mem_cons.mp h with h | h
      · exact absurd h.symm hx
      · simp only [pyRemove, if_neg hx, List.length_cons]
        have := ih h
        omega

theorem mem_intersection {ls1 ls2 : List α} {x : α} :
    x ∈ intersection ls1 ls2 ↔ x ∈ ls2 ∧ x ∈ ls1 := by
  simp [intersection, List.mem_filter]

theorem intersection_nil_right (ls1 : List α) : intersection ls1 [] = [] := rfl

theorem intersection_nil_left (ls2 : List α) : intersection ([] : List α) ls2 = [] := by
  simp [intersection]

theorem intersection_sublist (ls1 ls2 : List α) :
    intersection ls1 ls2 ⊆ ls2 := fun _ h => (mem_intersection.mp h).1

end PyLemmas

theorem mem_rangeZ {a b c : ℤ} : c ∈ rangeZ a b ↔ a ≤ c ∧ c < b := by
  unfold rangeZ
  simp only [List.mem_map, List.mem_range]
  constructor
  · rintro ⟨i, hi, rfl⟩
    omega
  · rintro ⟨h1, h2⟩
    exact ⟨(c - a).toNat, by omega, by omega⟩

theorem length_rangeZ (a b : ℤ) : (rangeZ a b).length = (b - a).toNat := by
  simp [rangeZ]

theorem nodup_rangeZ (a b : ℤ) : (rangeZ a b).Nodup := by
  unfold rangeZ
  refine List.Nodup.map ?_ (List.nodup_range _)
  intro x y h
  have h2 : a + (x : ℤ) = a + (y : ℤ) := h
  omega

theorem nodup_product {l1 : List ℤ} {l2 : List ℤ}
    (h1 : l1.Nodup) (h2 : l2.Nodup) : (l1 ×ˢ l2).Nodup := by
  induction l1 with
  | nil => simp
  | cons x rest ih =>
    rcases List.nodup_cons.mp h1 with ⟨hx, hrest⟩
    rw [List.product_cons]
    refine List.Nodup.append ?_ (ih hrest) ?_
    · refine List.Nodup.map ?_ h2
      intro a b hab
      simpa using congrArg Prod.snd hab
    · intro p hp hp2
      rcases List.mem_map.mp hp with ⟨b, _, rfl⟩
      rcases List.mem_product.mp hp2 with ⟨hu, _⟩
      exact hx hu

theorem keys_nil : keys [] = [] := rfl

theorem keys_cons {k : Coord} {v : Nat} {rest : Dict} :
    keys ((k, v) :: rest) = k :: keys rest := rfl

theorem mem_keys_cons {k c : Coord} {v : Nat} {rest : Dict} :
    c ∈ keys ((k, v) :: rest) ↔ c = k ∨ c ∈ keys rest := by
  rw [keys_cons, List.mem_cons]

theorem dictGet?_eq_none {d : Dict} {k : Coord} :
    dictGet? d k = none ↔ k ∉ keys d := by
  induction d with
  | nil => simp [dictGet?, keys_nil]
  | cons e rest ih =>
    rcases e with ⟨k0, v0⟩
    by_cases h : k0 = k
    · simp [dictGet?, h, mem_keys_cons]
    · simp [dictGet?, h, mem_keys_cons, ih, Ne.symm h]

theorem mem_keys_of_dictGet?_eq_some {d : Dict} {k : Coord} {v : Nat}
    (h : dictGet? d k = some v) : k ∈ keys d := by
  by_contra hmem
  rw [← dictGet?_eq_none] at hmem
  rw [hmem] at h
  cases h

theorem dictGet?_isSome_of_mem {d : Dict} {k : Coord} (h : k ∈ keys d) :
    ∃ v, dictGet? d k = some v := by
  cases hg : dictGet? d k with
  | none => exact absurd (dictGet?_eq_none.mp hg) (by simp [h])
  | some v => exact ⟨v, rfl⟩

theorem keys_dictSet_of_mem {d : Dict} {k : Coord} (v : Nat) (h : k ∈ keys d) :
    keys (dictSet d k v) = keys d := by
  induction d with
  | nil => cases h
  | cons e rest ih =>
    rcases e with ⟨k0, v0⟩
    by_cases hk : k0 = k
    · rw [show dictSet ((k0, v0) :: rest) k v = (k0, v) :: rest by simp [dictSet, hk]]
      rw [keys_cons, keys_cons]
    · have h2 : k ∈ keys rest := by
        rcases mem_keys_cons.mp h with h3 | h3
        · exact absurd h3.symm hk
        · exact h3
      rw [show dictSet ((k0, v0) :: rest) k v = (k0, v0) :: dictSet rest k v by
        simp [dictSet, hk]]
      rw [keys_cons, keys_cons, ih h2]

theorem keys_dictSet_of_not_mem {d : Dict} {k : Coord} (v : Nat) (h : k ∉ keys d) :
    keys (dictSet d k v) = keys d ++ [k] := by
  induction d with
  | nil => simp [dictSet, keys_cons, keys_nil]
  | cons e rest ih =>
    rcases e with ⟨k0, v0⟩
    have hk : k0 ≠ k := by
      intro hcontra
      exact h (mem_keys_cons.mpr (Or.inl hcontra.symm))
    have h2 : k ∉ keys rest := fun hmem => h (mem_keys_cons.mpr (Or.inr hmem))
    rw [show dictSet ((k0, v0) :: rest) k v = (k0, v0) :: dictSet rest k v by
      simp [dictSet, hk]]
    rw [keys_cons, keys_cons, ih h2]
    rfl

theorem mem_keys_dictSet {d : Dict} {k c : Coord} (v : Nat) :
    c ∈ keys (dictSet d k v) ↔ c ∈ keys d ∨ c = k := by
  by_cases h : k ∈ keys d
  · rw [keys_dictSet_of_mem v h]
    constructor
    · exact Or.inl
    · rintro (hc | rfl)
      · exact hc
      · exact h
  · rw [keys_dictSet_of_not_mem v h]
    simp

theorem nodup_keys_dictSet {d : Dict} {k : Coord} (v : Nat)
    (h : (keys d).Nodup) : (keys (dictSet d k v)).Nodup := by
  by_cases hm : k ∈ keys d
  · rwa [keys_dictSet_of_mem v hm]
  · rw [keys_dictSet_of_not_mem v hm]
    simpa [List.nodup_append] using ⟨h, hm⟩

theorem length_keys (d : Dict) : (keys d).length = d.length := by
  simp [keys]

theorem length_dictSet_of_mem {d : Dict} {k : Coord} (v : Nat) (h : k ∈ keys d) :
    (dictSet d k v).length = d.length := by
  have h1 := congrArg List.length (keys_dictSet_of_mem v h)
  rwa [length_keys, length_keys] at h1

theorem length_dictSet_of_not_mem {d : Dict} {k : Coord} (v : Nat) (h : k ∉ keys d) :
    (dictSet d k v).length = d.length + 1 := by
  have h1 := congrArg List.length (keys_dictSet_of_not_mem v h)
  rw [length_keys, List.length_append, length_keys] at h1
  simpa using h1

theorem dictGet?_dictSet_self {d : Dict} (k : Coord) (v : Nat) :
    dictGet? (dictSet d k v) k = some v := by
  induction d with
  | nil => simp [dictSet, dictGet?]
  | cons e rest ih =>
    rcases e with ⟨k0, v0⟩
    by_cases hk : k0 = k
    · simp [dictSet, dictGet?, hk]
    · simp [dictSet, dictGet?, hk, ih]

theorem dictGet?_dictSet_ne {d : Dict} {k c : Coord} (v : Nat) (h : c ≠ k) :
    dictGet? (dictSet d k v) c = dictGet? d c := by
  induction d with
  | nil => simp [dictSet, dictGet?, Ne.symm h]
  | cons e rest ih =>
    rcases e with ⟨k0, v0⟩
    by_cases hk : k0 = k
    · subst hk
      simp [dictSet, dictGet?, Ne.symm h]
    · by_cases hc : k0 = c
      · simp [dictSet, dictGet?, hk, hc, h]
      · simp [dictSet, dictGet?, hk, hc, ih]

theorem dictDel_cons_self {k : Coord} {v : Nat} {rest : Dict} :
    dictDel ((k, v) :: rest) k = rest := by
  simp [dictDel]

theorem dictDel_cons_ne {k k0 : Coord} {v0 : Nat} {rest : Dict} (h : k0 ≠ k) :
    dictDel ((k0, v0) :: rest) k = (k0, v0) :: dictDel rest k := by
  simp [dictDel, h]

theorem mem_keys_dictDel {d : Dict} {k c : Coord} (h : c ∈ keys (dictDel d k)) :
    c ∈ keys d := by
  induction d with
  | nil => simpa [dictDel, keys_nil] using h
  | cons e rest ih =>
    rcases e with ⟨k0, v0⟩
    by_cases hk : k0 = k
    · subst hk
      rw [dictDel_cons_self] at h
      exact mem_keys_cons.mpr (Or.inr h)
    · rw [dictDel_cons_ne hk] at h
      rcases mem_keys_cons.mp h with h2 | h2
      · exact mem_keys_cons.mpr (Or.inl h2)
      · exact mem_keys_cons.mpr (Or.inr (ih h2))

theorem mem_keys_dictDel_of_ne {d : Dict} {k c : Coord} (h : c ≠ k) :
    c ∈ keys (dictDel d k) ↔ c ∈ keys d := by
  induction d with
  | nil => simp [dictDel, keys_nil]
  | cons e rest ih =>
    rcases e with ⟨k0, v0⟩
    by_cases hk : k0 = k
    · subst hk
      rw [dictDel_cons_self]
      constructor
      · intro hmem
        exact mem_keys_cons.mpr (Or.inr hmem)
      · intro hmem
        rcases mem_keys_cons.mp hmem with h2 | h2
        · exact absurd h2 h
        · exact h2
    · rw [dictDel_cons_ne hk]
      constructor
      · intro hmem
        rcases mem_keys_cons.mp hmem with h2 | h2
        · exact mem_keys_cons.mpr (Or.inl h2)
        · exact mem_keys_cons.mpr (Or.inr (ih.mp h2))
      · intro hmem
        rcases mem_keys_cons.mp hmem with h2 | h2
        · exact mem_keys_cons.mpr (Or.inl h2)
        · exact mem_keys_cons.mpr (Or.inr (ih.mpr h2))

theorem not_mem_keys_dictDel {d : Dict} {k : Coord} (h : (keys d).Nodup) :
    k ∉ keys (dictDel d k) := by
  induction d with
  | nil => simp [dictDel, keys_nil]
  | cons e rest ih =>
    rcases e with ⟨k0, v0⟩
    rcases List.nodup_cons.mp (keys_cons ▸ h) with ⟨hk0, hrest⟩
    by_cases hk : k0 = k
    · subst hk
      rw [dictDel_cons_self]
      exact hk0
    · rw [dictDel_cons_ne hk]
      intro hmem
      rcases mem_keys_cons.mp hmem with h2 | h2
      · exact hk h2.symm
      · exact ih hrest h2

theorem nodup_keys_dictDel {d : Dict} (k : Coord) (h : (keys d).Nodup) :
    (keys (dictDel d k)).Nodup := by
  induction d with
  | nil => simpa [dictDel] using h
  | cons e rest ih =>
    rcases e with ⟨k0, v0⟩
    rcases List.nodup_cons.mp (keys_cons ▸ h) with ⟨hk0, hrest⟩
    by_cases hk : k0 = k
    · subst hk
      rw [dictDel_cons_self]
      exact hrest
    · rw [dictDel_cons_ne hk, keys_cons]
      exact List.nodup_cons.mpr ⟨fun hmem => hk0 (mem_keys_dictDel hmem), ih hrest⟩

theorem length_dictDel_of_mem {d : Dict} {k : Coord} (h : k ∈ keys d) :
    (dictDel d k).length + 1 = d.length := by
  induction d with
  | nil => cases h
  | cons e rest ih =>
    rcases e with ⟨k0, v0⟩
    by_cases hk : k0 = k
    · rw [show dictDel ((k0, v0) :: rest) k = rest by subst hk; exact dictDel_cons_self]
      rfl
    · have h2 : k ∈ keys rest := by
        rcases mem_keys_cons.mp h with h3 | h3
        · exact absurd h3.symm hk
        · exact h3
      rw [dictDel_cons_ne hk, List.length_cons, List.length_cons]
      have := ih h2
      omega

theorem dictGet?_dictDel_ne {d : Dict} {k c : Coord} (h : c ≠ k) :
    dictGet? (dictDel d k) c = dictGet? d c := by
  induction d with
  | nil => simp [dictDel]
  | cons e rest ih =>
    rcases e with ⟨k0, v0⟩
    by_cases hk : k0 = k
    · subst hk
      rw [dictDel_cons_self]
      simp [dictGet?, Ne.symm h]
    · rw [dictDel_cons_ne hk]
      by_cases hc : k0 = c
      · simp [dictGet?, hc]
      · simp [dictGet?, hc, ih]

theorem dictDel_dictSet_cancel {d : Dict} {k : Coord} (v : Nat) (h : k ∉ keys d) :
    dictDel (dictSet d k v) k = d := by
  induction d with
  | nil => simp [dictSet, dictDel]
  | cons e rest ih =>
    rcases e with ⟨k0, v0⟩
    have hk : k0 ≠ k := by
      intro hcontra
      exact h (mem_keys_cons.mpr (Or.inl hcontra.symm))
    have h2 : k ∉ keys rest := fun hmem => h (mem_keys_cons.mpr (Or.inr hmem))
    rw [show dictSet ((k0, v0) :: rest) k v = (k0, v0) :: dictSet rest k v by
      simp [dictSet, hk]]
    rw [dictDel_cons_ne hk, ih h2]

theorem dictDel?_eq_some {d d2 : Dict} {k : Coord} :
    dictDel? d k = some d2 ↔ k ∈ keys d ∧ d2 = dictDel d k := by
  unfold dictDel?
  by_cases h : k ∈ keys d
  · simp [h, eq_comm]
  · simp [h]

theorem mem_pyRemove_iff {α : Type _} [DecidableEq α] {l : List α} {a c : α}
    (h : l.Nodup) : c ∈ pyRemove l a ↔ c ∈ l ∧ c ≠ a := by
  by_cases hc : c = a
  · subst hc
    simp [not_mem_pyRemove h]
  · rw [mem_pyRemove_of_ne hc]
    simpa using fun _ => hc

theorem empty_after_move_nodup {es : List Coord} {ns agent : Coord}
    (hne : es.Nodup) (hnotin : agent ∉ pyRemove es ns) :
    (pyRemove es ns ++ [agent]).Nodup := by
  rw [List.nodup_append]
  exact ⟨nodup_pyRemove _ hne, List.nodup_singleton _,
    fun c hc hc2 => hnotin ((List.mem_singleton.mp hc2) ▸ hc)⟩

theorem length_empty_after_move {es : List Coord} {ns : Coord} (agent : Coord)
    (hns : ns ∈ es) : (pyRemove es ns ++ [agent]).length = es.length := by
  rw [List.length_append]
  have := length_pyRemove_of_mem hns
  simpa using this

theorem mem_empty_after_move {es : List Coord} {ns agent c : Coord}
    (hne : es.Nodup) (h : c ∈ pyRemove es ns ++ [agent]) :
    (c ∈ es ∧ c ≠ ns) ∨ c = agent := by
  rcases List.mem_append.mp h with h | h
  · exact Or.inl ((mem_pyRemove_iff hne).mp h)
  · exact Or.inr (List.mem_singleton.mp h)

theorem rekey_facts {d : Dict} {ns agent : Coord} (v : Nat)
    (hnd : (keys d).Nodup) (hns : ns ∉ keys d) (hag : agent ∈ keys d) :
    (keys (dictDel (dictSet d ns v) agent)).Nodup ∧
    (dictDel (dictSet d ns v) agent).length = d.length ∧
    agent ∉ keys (dictDel (dictSet d ns v) agent) ∧
    (∀ c, c ∈ keys (dictDel (dictSet d ns v) agent) → c ∈ keys d ∨ c = ns) := by
  have hkeys : keys (dictSet d ns v) = keys d ++ [ns] := keys_dictSet_of_not_mem v hns
  have hnodup1 : (keys (dictSet d ns v)).Nodup := nodup_keys_dictSet v hnd
  have hag1 : agent ∈ keys (dictSet d ns v) := by
    rw [hkeys]
    exact List.mem_append_left _ hag
  refine ⟨nodup_keys_dictDel _ hnodup1, ?_, not_mem_keys_dictDel hnodup1, ?_⟩
  · have h1 := length_dictDel_of_mem hag1
    have h2 := length_dictSet_of_not_mem v hns
    have h3 := length_keys (dictSet d ns v)
    omega
  · intro c hc
    have hmem := mem_keys_dictDel hc
    rw [hkeys] at hmem
    rcases List.mem_append.mp hmem with h | h
    · exact Or.inl h
    · exact Or.inr (List.mem_singleton.mp h)

theorem move_to_empty_inv {r choice : Nat} {agent : Coord} {inf : Bool}
    {s s2 : VirusState}
    (h : move_to_empty r choice agent inf s = some s2) :
    (¬ 0 < (intersection (neighborsMove r agent) s.empty_spots).length ∧ s2 = s) ∨
    (∃ hlen : 0 < (intersection (neighborsMove r agent) s.empty_spots).length,
      ∃ ns : Coord,
        (intersection (neighborsMove r agent) s.empty_spots).get
          ⟨choice % (intersection (neighborsMove r agent) s.empty_spots).length,
            Nat.mod_lt _ hlen⟩ = ns ∧
        ((inf = true ∧ ∃ v, dictGet? s.infected agent = some v ∧
            s2 = { s with infected := dictDel (dictSet s.infected ns v) agent,
                          empty_spots := pyRemove s.empty_spots ns ++ [agent] }) ∨
         (inf = false ∧ ∃ hd, dictDel? (dictSet s.healthy ns 0) agent = some hd ∧
            s2 = { s with healthy := hd,
                          empty_spots := pyRemove s.empty_spots ns ++ [agent] }))) := by
  cases inf
  case true =>
    simp only [move_to_empty] at h
    split at h
    next hlen =>
      refine Or.inr ⟨hlen, _, rfl, Or.inl ⟨rfl, ?_⟩⟩
      split at h
      next heq => cases h
      next v heq =>
        injection h with h
        exact ⟨v, heq, h.symm⟩
    next hlen =>
      injection h with h
      exact Or.inl ⟨hlen, h.symm⟩
  case false =>
    simp only [move_to_empty] at h
    split at h
    next hlen =>
      refine Or.inr ⟨hlen, _, rfl, Or.inr ⟨rfl, ?_⟩⟩
      split at h
      next heq => cases h
      next hd heq =>
        injection h with h
        exact ⟨hd, heq, h.symm⟩
    next hlen =>
      injection h with h
      exact Or.inl ⟨hlen, h.symm⟩

theorem move_to_empty_WF {p : Params} {choice : Nat} {agent : Coord} {inf : Bool}
    {s s2 : VirusState} (hwf : WF p s)
    (h : move_to_empty p.max_range choice agent inf s = some s2) : WF p s2 := by
  obtain ⟨hnh, hni, hne, hdhi, hdhe, hdie, hsum⟩ := hwf
  rcases move_to_empty_inv h with ⟨_, rfl⟩ | ⟨hlen, ns, hns, hcase⟩
  · exact ⟨hnh, hni, hne, hdhi, hdhe, hdie, hsum⟩
  · have hns_mem : ns ∈ s.empty_spots := by
      rw [← hns]
      exact (mem_intersection.mp (List.get_mem _ _ _)).1
    have hns_nh : ns ∉ keys s.healthy := fun hc => hdhe ns hc hns_mem
    have hns_ni : ns ∉ keys s.infected := fun hc => hdie ns hc hns_mem
    rcases hcase with ⟨_, v, hget, rfl⟩ | ⟨_, hd, hdel, rfl⟩
    · -- infected agent is re-keyed from agent to ns
      have hag : agent ∈ keys s.infected := mem_keys_of_dictGet?_eq_some hget
      have hag_ne : agent ∉ s.empty_spots := hdie agent hag
      obtain ⟨hn2, hl2, hnm2, hsub2⟩ := rekey_facts v hni hns_ni hag
      have hag_nr : agent ∉ pyRemove s.empty_spots ns :=
        fun hc => hag_ne (mem_pyRemove hc)
      refine ⟨hnh, hn2, empty_after_move_nodup hne hag_nr, ?_, ?_, ?_, ?_⟩
      · intro c hc hc2
        rcases hsub2 c hc2 with h2 | h2
        · exact hdhi c hc h2
        · exact hns_nh (h2 ▸ hc)
      · intro c hc hc2
        rcases mem_empty_after_move hne hc2 with ⟨h2, _⟩ | h2
        · exact hdhe c hc h2
        · exact hdhi c hc (h2 ▸ hag)
      · intro c hc hc2
        have hc_ne_agent : c ≠ agent := fun he => hnm2 (he ▸ hc)
        rcases mem_empty_after_move hne hc2 with ⟨h2, h3⟩ | h2
        · rcases hsub2 c hc with h4 | h4
          · exact hdie c h4 h2
          · exact h3 h4
        · exact hc_ne_agent h2
      · have hle := length_empty_after_move agent hns_mem
        simpa [hl2, hle] using hsum
    · -- healthy agent: the deletion succeeded on dictSet s.healthy ns 0
      obtain ⟨hagm, rfl⟩ := dictDel?_eq_some.mp hdel
      have hkeys1 : keys (dictSet s.healthy ns 0) = keys s.healthy ++ [ns] :=
        keys_dictSet_of_not_mem 0 hns_nh
      by_cases hah : agent ∈ keys s.healthy
      · have hag_ne : agent ∉ s.empty_spots := hdhe agent hah
        obtain ⟨hn2, hl2, hnm2, hsub2⟩ := rekey_facts 0 hnh hns_nh hah
        have hag_nr : agent ∉ pyRemove s.empty_spots ns :=
          fun hc => hag_ne (mem_pyRemove hc)
        refine ⟨hn2, hni, empty_after_move_nodup hne hag_nr, ?_, ?_, ?_, ?_⟩
        · intro c hc hc2
          rcases hsub2 c hc with h2 | h2
          · exact hdhi c h2 hc2
          · exact hns_ni (h2 ▸ hc2)
        · intro c hc hc2
          have hc_ne_agent : c ≠ agent := fun he => hnm2 (he ▸ hc)
          rcases mem_empty_after_move hne hc2 with ⟨h2, h3⟩ | h2
          · rcases hsub2 c hc with h4 | h4
            · exact hdhe c h4 h2
            · exact h3 h4
          · exact hc_ne_agent h2
        · intro c hc hc2
          rcases mem_empty_after_move hne hc2 with ⟨h2, _⟩ | h2
          · exact hdie c hc h2
          · exact hdhi agent hah (h2 ▸ hc)
        · have hle := length_empty_after_move agent hns_mem
          simpa [hl2, hle] using hsum
      · -- then agent = ns and the set/del cancel out
        have hag_ns : agent = ns := by
          rw [hkeys1] at hagm
          rcases List.mem_append.mp hagm with h2 | h2
          · exact absurd h2 hah
          · exact List.mem_singleton.mp h2
        subst hag_ns
        rw [dictDel_dictSet_cancel 0 hns_nh]
        have hnr : agent ∉ pyRemove s.empty_spots agent := not_mem_pyRemove hne
        refine ⟨hnh, hni, empty_after_move_nodup hne hnr, hdhi, ?_, ?_, ?_⟩
        · intro c hc hc2
          rcases mem_empty_after_move hne hc2 with ⟨h2, _⟩ | h2
          · exact hdhe c hc h2
          · exact hns_nh (h2 ▸ hc)
        · intro c hc hc2
          rcases mem_empty_after_move hne hc2 with ⟨h2, _⟩ | h2
          · exact hdie c hc h2
          · exact hns_ni (h2 ▸ hc)
        · have hle := length_empty_after_move agent hns_mem
          simpa [hle] using hsum

theorem contracted_inv {agent : Coord} {s s1 : VirusState} {b : Bool}
    (h : contracted agent s = some (b, s1)) :
    (b = true ∧ 0 < (intersection (neighborsContract agent) (keys s.infected)).length ∧
      agent ∈ keys s.healthy ∧
      s1 = { s with infected := dictSet s.infected agent 0,
                    healthy := dictDel s.healthy agent }) ∨
    (b = false ∧ ¬ 0 < (intersection (neighborsContract agent) (keys s.infected)).length ∧
      s1 = s) := by
  simp only [contracted] at h
  split at h
  next hlen =>
    split at h
    next heq => cases h
    next hd heq =>
      obtain ⟨hag, rfl⟩ := dictDel?_eq_some.mp heq
      injection h with h
      injection h with h1 h2
      exact Or.inl ⟨h1.symm, hlen, hag, h2.symm⟩
  next hlen =>
    injection h with h
    injection h with h1 h2
    exact Or.inr ⟨h1.symm, hlen, h2.symm⟩

theorem recovered_inv {ct : Nat} {agent : Coord} {s s1 : VirusState} {b : Bool}
    (h : recovered ct agent s = some (b, s1)) :
    ∃ days, dictGet? s.infected agent = some days ∧
      ((b = true ∧ days > ct ∧
        s1 = { s with healthy := dictSet s.healthy agent 0,
                      infected := dictDel s.infected agent }) ∨
       (b = false ∧ ¬ days > ct ∧
        s1 = { s with infected := dictSet s.infected agent (days + 1) })) := by
  unfold recovered at h
  split at h
  next heq => cases h
  next days heq =>
    refine ⟨days, heq, ?_⟩
    split at h
    next hdays =>
      injection h with h
      injection h with h1 h2
      exact Or.inl ⟨h1.symm, hdays, h2.symm⟩
    next hdays =>
      injection h with h
      injection h with h1 h2
      exact Or.inr ⟨h1.symm, hdays, h2.symm⟩

theorem contracted_WF {p : Params} {agent : Coord} {s s1 : VirusState} {b : Bool}
    (hwf : WF p s) (h : contracted agent s = some (b, s1)) : WF p s1 := by
  obtain ⟨hnh, hni, hne, hdhi, hdhe, hdie, hsum⟩ := hwf
  rcases contracted_inv h with ⟨_, _, hag, rfl⟩ | ⟨_, _, rfl⟩
  · have hag_ni : agent ∉ keys s.infected := hdhi agent hag
    have hag_ne : agent ∉ s.empty_spots := hdhe agent hag
    have hkeysi : keys (dictSet s.infected agent 0) = keys s.infected ++ [agent] :=
      keys_dictSet_of_not_mem 0 hag_ni
    refine ⟨nodup_keys_dictDel _ hnh, nodup_keys_dictSet 0 hni, hne, ?_, ?_, ?_, ?_⟩
    · intro c hc hc2
      have hcm := mem_keys_dictDel hc
      have hcne : c ≠ agent := fun he => not_mem_keys_dictDel hnh (he ▸ hc)
      rw [hkeysi] at hc2
      rcases List.mem_append.mp hc2 with h2 | h2
      · exact hdhi c hcm h2
      · exact hcne (List.mem_singleton.mp h2)
    · intro c hc
      exact hdhe c (mem_keys_dictDel hc)
    · intro c hc
      rw [hkeysi] at hc
      rcases List.mem_append.mp hc with h2 | h2
      · exact hdie c h2
      · exact (List.mem_singleton.mp h2) ▸ hag_ne
    · have h1 := length_dictDel_of_mem hag
      have h2 := length_dictSet_of_not_mem 0 hag_ni
      simp only []
      omega
  · exact ⟨hnh, hni, hne, hdhi, hdhe, hdie, hsum⟩

theorem recovered_WF {p : Params} {ct : Nat} {agent : Coord} {s s1 : VirusState}
    {b : Bool} (hwf : WF p s) (h : recovered ct agent s = some (b, s1)) : WF p s1 := by
  obtain ⟨hnh, hni, hne, hdhi, hdhe, hdie, hsum⟩ := hwf
  obtain ⟨days, hget, hcase⟩ := recovered_inv h
  have hag : agent ∈ keys s.infected := mem_keys_of_dictGet?_eq_some hget
  rcases hcase with ⟨_, _, rfl⟩ | ⟨_, _, rfl⟩
  · have hag_nh : agent ∉ keys s.healthy := fun hc => hdhi agent hc hag
    have hag_ne : agent ∉ s.empty_spots := hdie agent hag
    have hkeysh : keys (dictSet s.healthy agent 0) = keys s.healthy ++ [agent] :=
      keys_dictSet_of_not_mem 0 hag_nh
    refine ⟨nodup_keys_dictSet 0 hnh, nodup_keys_dictDel _ hni, hne, ?_, ?_, ?_, ?_⟩
    · intro c hc hc2
      rw [hkeysh] at hc
      have hc2m := mem_keys_dictDel hc2
      have hc2ne : c ≠ agent := fun he => not_mem_keys_dictDel hni (he ▸ hc2)
      rcases List.mem_append.mp hc with h2 | h2
      · exact hdhi c h2 hc2m
      · exact hc2ne (List.mem_singleton.mp h2)
    · intro c hc
      rw [hkeysh] at hc
      rcases List.mem_append.mp hc with h2 | h2
      · exact hdhe c h2
      · exact (List.mem_singleton.mp h2) ▸ hag_ne
    · intro c hc
      exact hdie c (mem_keys_dictDel hc)
    · have h1 := length_dictDel_of_mem hag
      have h2 := length_dictSet_of_not_mem 0 hag_nh
      simp only []
      omega
  · have hkeysi : keys (dictSet s.infected agent (days + 1)) = keys s.infected :=
      keys_dictSet_of_mem _ hag
    have hlen : (dictSet s.infected agent (days + 1)).length = s.infected.length :=
      length_dictSet_of_mem _ hag
    refine ⟨hnh, ?_, hne, ?_, hdhe, ?_, ?_⟩
    · rw [hkeysi]
      exact hni
    · intro c hc
      rw [hkeysi]
      exact hdhi c hc
    · intro c hc
      rw [hkeysi] at hc
      exact hdie c hc
    · simp only [hlen]
      omega

theorem stepInfected_WF {p : Params} {roll : ℚ} {choice : Nat} {agent : Coord}
    {s s2 : VirusState} (hwf : WF p s)
    (h : stepInfected p roll choice agent s = some s2) : WF p s2 := by
  unfold stepInfected at h
  split at h
  · split at h
    next heq => cases h
    next d heq =>
      injection h with h
      subst h
      obtain ⟨hag, rfl⟩ := dictDel?_eq_some.mp heq
      obtain ⟨hnh, hni, hne, hdhi, hdhe, hdie, hsum⟩ := hwf
      refine ⟨hnh, nodup_keys_dictDel _ hni, hne, ?_, hdhe, ?_, ?_⟩
      · intro c hc hc2
        exact hdhi c hc (mem_keys_dictDel hc2)
      · intro c hc
        exact hdie c (mem_keys_dictDel hc)
      · have h1 := length_dictDel_of_mem hag
        simp only []
        omega
  · split at h
    next heq => cases h
    next s1 heq => exact move_to_empty_WF (recovered_WF hwf heq) h
    next s1 heq => exact move_to_empty_WF (recovered_WF hwf heq) h

theorem stepHealthy_WF {p : Params} {choice : Nat} {agent : Coord}
    {s s2 : VirusState} (hwf : WF p s)
    (h : stepHealthy p choice agent s = some s2) : WF p s2 := by
  unfold stepHealthy at h
  split at h
  next heq => cases h
  next s1 heq => exact move_to_empty_WF (contracted_WF hwf heq) h
  next s1 heq => exact move_to_empty_WF (contracted_WF hwf heq) h

theorem infectedPhase_WF {p : Params} {rolls : Nat → ℚ} {ci : Nat → Nat} :
    ∀ {l : List Coord} {i : Nat} {s s2 : VirusState}, WF p s →
    infectedPhase p rolls ci l i s = some s2 → WF p s2 := by
  intro l
  induction l with
  | nil =>
    intro i s s2 hwf h
    unfold infectedPhase at h
    injection h with h
    exact h ▸ hwf
  | cons a rest ih =>
    intro i s s2 hwf h
    unfold infectedPhase at h
    split at h
    next heq => cases h
    next s1 heq => exact ih (stepInfected_WF hwf heq) h

theorem healthyPhase_WF {p : Params} {ch : Nat → Nat} :
    ∀ {l : List Coord} {i : Nat} {s s2 : VirusState}, WF p s →
    healthyPhase p ch l i s = some s2 → WF p s2 := by
  intro l
  induction l with
  | nil =>
    intro i s s2 hwf h
    unfold healthyPhase at h
    injection h with h
    exact h ▸ hwf
  | cons a rest ih =>
    intro i s s2 hwf h
    unfold healthyPhase at h
    split at h
    next heq => cases h
    next s1 heq => exact ih (stepHealthy_WF hwf heq) h

theorem iteration_WF {p : Params} {rolls : Nat → ℚ} {ci ch : Nat → Nat}
    {s s2 : VirusState} (hwf : WF p s)
    (h : iteration p rolls ci ch s = some s2) : WF p s2 := by
  unfold iteration at h
  split at h
  next heq => cases h
  next s1 heq => exact healthyPhase_WF (infectedPhase_WF hwf heq) h

theorem updateLoop_WF {p : Params} {rolls : Nat → Nat → ℚ} {ci ch : Nat → Nat → Nat} :
    ∀ {k count : Nat} {s : VirusState} {s2 : VirusState} {n : Nat}, WF p s →
    updateLoop p rolls ci ch k count s = some (s2, n) → WF p s2 := by
  intro k
  induction k with
  | zero =>
    intro count s s2 n hwf h
    unfold updateLoop at h
    injection h with h
    have h2 : s = s2 := congrArg Prod.fst h
    exact h2 ▸ hwf
  | succ k ih =>
    intro count s s2 n hwf h
    unfold updateLoop at h
    split at h
    next heq => cases h
    next s1 heq =>
      split at h
      · injection h with h
        have h2 : s1 = s2 := congrArg Prod.fst h
        exact h2 ▸ iteration_WF hwf heq
      · exact ih (iteration_WF hwf heq) h

theorem nodup_virusGrid (p : Params) : (virusGrid p).Nodup :=
  nodup_product (nodup_rangeZ _ _) (nodup_rangeZ _ _)

theorem length_virusGrid (p : Params) : (virusGrid p).length = p.height * p.width := by
  unfold virusGrid
  rw [List.length_product, length_rangeZ, length_rangeZ]
  have h1 : ((p.height : ℤ) - 0).toNat = p.height := by omega
  have h2 : ((p.width : ℤ) - 0).toNat = p.width := by omega
  rw [h1, h2]

theorem keys_map_zero (l : List Coord) : keys (l.map (fun c => (c, 0))) = l := by
  unfold keys
  rw [List.map_map]
  exact List.map_id _

theorem populate_WF {p : Params} {shuffled : List Coord}
    (hperm : shuffled.Perm (virusGrid p)) :
    WF p (populate p shuffled) ∧ (populate p shuffled).deaths = 0 := by
  have hnodup : shuffled.Nodup := hperm.nodup_iff.mpr (nodup_virusGrid p)
  have hlength : shuffled.length = p.width * p.height := by
    rw [hperm.length_eq, length_virusGrid, Nat.mul_comm]
  unfold populate WF
  simp only [keys_map_zero, List.length_map]
  have hsplit1 : empty_spots_init p shuffled ++ inhabited p shuffled = shuffled :=
    pySlice_append shuffled (n_empty p shuffled)
  have hsplit2 : pySliceTo (inhabited p shuffled) (n_infected p shuffled) ++
      pySliceFrom (inhabited p shuffled) (n_infected p shuffled) = inhabited p shuffled :=
    pySlice_append _ _
  have hnodup2 : (empty_spots_init p shuffled ++
      (pySliceTo (inhabited p shuffled) (n_infected p shuffled) ++
        pySliceFrom (inhabited p shuffled) (n_infected p shuffled))).Nodup := by
    rw [hsplit2, hsplit1]
    exact hnodup
  rw [List.nodup_append] at hnodup2
  obtain ⟨hnE2, hnIH, hdisjE⟩ := hnodup2
  rw [List.nodup_append] at hnIH
  obtain ⟨hnInf, hnH, hdisjIH⟩ := hnIH
  have hlensum : (empty_spots_init p shuffled).length +
      ((pySliceTo (inhabited p shuffled) (n_infected p shuffled)).length +
        (pySliceFrom (inhabited p shuffled) (n_infected p shuffled)).length)
      = p.width * p.height := by
    have h1 := congrArg List.length hsplit1
    have h2 := congrArg List.length hsplit2
    simp only [List.length_append] at h1 h2
    omega
  refine ⟨⟨hnH, hnInf, hnE2, ?_, ?_, ?_, ?_⟩, trivial⟩
  · intro c hc hc2
    exact hdisjIH hc2 hc
  · intro c hc hc2
    exact hdisjE hc2 (List.mem_append_right _ hc)
  · intro c hc hc2
    exact hdisjE hc2 (List.mem_append_left _ hc)
  · omega

theorem length_neighborsMove (r : Nat) (c : Coord) :
    (neighborsMove r c).length = (2 * r + 1) * (2 * r + 1) := by
  unfold neighborsMove
  rw [List.length_product, length_rangeZ, length_rangeZ]
  have h1 : ((c.1 + ((r : ℤ) + 1)) - (c.1 - (r : ℤ))).toNat = 2 * r + 1 := by omega
  have h2 : ((c.2 + ((r : ℤ) + 1)) - (c.2 - (r : ℤ))).toNat = 2 * r + 1 := by omega
  rw [h1, h2]

theorem mem_neighborsMove {r : Nat} {c a : Coord} :
    a ∈ neighborsMove r c ↔
      c.1 - r ≤ a.1 ∧ a.1 ≤ c.1 + r ∧ c.2 - r ≤ a.2 ∧ a.2 ≤ c.2 + r := by
  unfold neighborsMove
  obtain ⟨x, y⟩ := a
  rw [List.mem_product, mem_rangeZ, mem_rangeZ]
  constructor
  · rintro ⟨⟨h1, h2⟩, h3, h4⟩
    exact ⟨h1, by omega, h3, by omega⟩
  · rintro ⟨h1, h2, h3, h4⟩
    exact ⟨⟨h1, by omega⟩, h3, by omega⟩

theorem center_mem_neighborsMove (r : Nat) (c : Coord) : c ∈ neighborsMove r c := by
  rw [mem_neighborsMove]
  omega

theorem nodup_neighborsContract_base (c : Coord) :
    ((rangeZ (c.1 - 1) (c.1 + 2)) ×ˢ (rangeZ (c.2 - 1) (c.2 + 2))).Nodup :=
  nodup_product (nodup_rangeZ _ _) (nodup_rangeZ _ _)

theorem center_mem_contract_base (c : Coord) :
    c ∈ (rangeZ (c.1 - 1) (c.1 + 2)) ×ˢ (rangeZ (c.2 - 1) (c.2 + 2)) := by
  obtain ⟨x, y⟩ := c
  rw [List.mem_product, mem_rangeZ, mem_rangeZ]
  constructor
  · constructor <;> omega
  · constructor <;> omega

theorem length_neighborsContract (c : Coord) : (neighborsContract c).length = 8 := by
  unfold neighborsContract
  have hl := length_pyRemove_of_mem (center_mem_contract_base c)
  have hp : ((rangeZ (c.1 - 1) (c.1 + 2)) ×ˢ (rangeZ (c.2 - 1) (c.2 + 2))).length = 9 := by
    rw [List.length_product, length_rangeZ, length_rangeZ]
    have h1 : ((c.1 + 2) - (c.1 - 1)).toNat = 3 := by omega
    have h2 : ((c.2 + 2) - (c.2 - 1)).toNat = 3 := by omega
    rw [h1, h2]
  omega

theorem mem_neighborsContract {c a : Coord} :
    a ∈ neighborsContract c ↔
      (c.1 - 1 ≤ a.1 ∧ a.1 ≤ c.1 + 1 ∧ c.2 - 1 ≤ a.2 ∧ a.2 ≤ c.2 + 1) ∧ a ≠ c := by
  unfold neighborsContract
  rw [mem_pyRemove_iff (nodup_neighborsContract_base c)]
  obtain ⟨x, y⟩ := a
  rw [List.mem_product, mem_rangeZ, mem_rangeZ]
  constructor
  · rintro ⟨⟨⟨h1, h2⟩, h3, h4⟩, hne⟩
    exact ⟨⟨h1, by omega, h3, by omega⟩, hne⟩
  · rintro ⟨⟨h1, h2, h3, h4⟩, hne⟩
    exact ⟨⟨⟨h1, by omega⟩, h3, by omega⟩, hne⟩

theorem center_not_mem_neighborsContract (c : Coord) : c ∉ neighborsContract c := by
  rw [mem_neighborsContract]
  rintro ⟨_, hne⟩
  exact hne rfl

theorem pyInt_of_nonneg {q : ℚ} (h : 0 ≤ q) : pyInt q = ⌊q⌋ := by
  unfold pyInt
  rw [if_neg (not_lt.mpr h)]

theorem pyInt_nonneg {q : ℚ} (h : 0 ≤ q) : 0 ≤ pyInt q := by
  rw [pyInt_of_nonneg h]
  exact Int.floor_nonneg.mpr h

theorem pyInt_mul_le {q : ℚ} {m : Nat} (h0 : 0 ≤ q) (h1 : q ≤ 1) :
    pyInt (q * (m : ℚ)) ≤ (m : ℤ) := by
  have hnn : (0 : ℚ) ≤ (m : ℚ) := by positivity
  rw [pyInt_of_nonneg (mul_nonneg h0 hnn)]
  have hle : q * (m : ℚ) ≤ (m : ℚ) := by
    calc q * (m : ℚ) ≤ 1 * (m : ℚ) := mul_le_mul_of_nonneg_right h1 hnn
    _ = (m : ℚ) := one_mul _
  calc ⌊q * (m : ℚ)⌋ ≤ ⌊(m : ℚ)⌋ := Int.floor_le_floor hle
  _ = (m : ℤ) := Int.floor_natCast m

theorem length_pySliceFrom_nonneg {α : Type _} {l : List α} {n : ℤ} (h : 0 ≤ n) :
    (pySliceFrom l n).length = l.length - n.toNat := by
  unfold pySliceFrom
  rw [if_neg (not_lt.mpr h)]
  exact List.length_drop _ _

theorem length_pySliceTo_nonneg {α : Type _} {l : List α} {n : ℤ} (h : 0 ≤ n) :
    (pySliceTo l n).length = min n.toNat l.length := by
  unfold pySliceTo
  rw [if_neg (not_lt.mpr h)]
  exact List.length_take _ _

theorem move_to_empty_noop {r choice : Nat} {agent : Coord} {inf : Bool}
    {s : VirusState} (h : intersection (neighborsMove r agent) s.empty_spots = []) :
    move_to_empty r choice agent inf s = some s := by
  have hlen : ¬ (intersection (neighborsMove r agent) s.empty_spots).length > 0 := by
    rw [h]
    simp
  simp only [move_to_empty]
  rw [dif_neg hlen]

theorem move_to_empty_eq_true {r choice : Nat} {agent ns : Coord} {s : VirusState}
    {v : Nat}
    (hlen : 0 < (intersection (neighborsMove r agent) s.empty_spots).length)
    (hns : (intersection (neighborsMove r agent) s.empty_spots).get
        ⟨choice % (intersection (neighborsMove r agent) s.empty_spots).length,
          Nat.mod_lt _ hlen⟩ = ns)
    (hget : dictGet? s.infected agent = some v) :
    move_to_empty r choice agent true s =
      some { s with infected := dictDel (dictSet s.infected ns v) agent,
                    empty_spots := pyRemove s.empty_spots ns ++ [agent] } := by
  subst hns
  simp only [move_to_empty]
  rw [dif_pos hlen, hget]

theorem move_to_empty_eq_false {r choice : Nat} {agent ns : Coord} {s : VirusState}
    (hlen : 0 < (intersection (neighborsMove r agent) s.empty_spots).length)
    (hns : (intersection (neighborsMove r agent) s.empty_spots).get
        ⟨choice % (intersection (neighborsMove r agent) s.empty_spots).length,
          Nat.mod_lt _ hlen⟩ = ns)
    (hag : agent ∈ keys (dictSet s.healthy ns 0)) :
    move_to_empty r choice agent false s =
      some { s with healthy := dictDel (dictSet s.healthy ns 0) agent,
                    empty_spots := pyRemove s.empty_spots ns ++ [agent] } := by
  subst hns
  simp only [move_to_empty]
  rw [dif_pos hlen]
  rw [show dictDel? (dictSet s.healthy
      ((intersection (neighborsMove r agent) s.empty_spots).get
        ⟨choice % (intersection (neighborsMove r agent) s.empty_spots).length,
          Nat.mod_lt _ hlen⟩) 0) agent
    = some (dictDel (dictSet s.healthy
      ((intersection (neighborsMove r agent) s.empty_spots).get
        ⟨choice % (intersection (neighborsMove r agent) s.empty_spots).length,
          Nat.mod_lt _ hlen⟩) 0) agent)
    from dictDel?_eq_some.mpr ⟨hag, rfl⟩]

/-- Claim C3: `intersection(A, B)` is claimed to return exactly the elements
of `B` that are members of `A`, preserving order, WITHOUT duplicates.  The
code only deduplicates `A` (via `set(ls1)`), never `B`: evaluated at
`ls1 = [(1,1)]`, `ls2 = [(1,1), (1,1)]` it returns `[(1,1), (1,1)]`, which
contains a duplicate — contradicting the claim and the function's own
docstring (a code bug). -/
theorem C3_intersection_duplicates :
    intersection [((1 : ℤ), (1 : ℤ))] [((1 : ℤ), (1 : ℤ)), ((1 : ℤ), (1 : ℤ))]
        = [((1 : ℤ), (1 : ℤ)), ((1 : ℤ), (1 : ℤ))] ∧
    ¬ ([((1 : ℤ), (1 : ℤ)), ((1 : ℤ), (1 : ℤ))] : List Coord).Nodup := by
  constructor
  · rfl
  · decide

/-- Claim C4 (counterexample): the candidate list built by `move_to_empty`
at radius 1 around (0,0) has (2·1+1)² = 9 entries, not (2·1+1)² − 1 = 8,
and it contains the agent's own coordinate (the `remove((x, y))` call is
commented out in the source). -/
theorem C4_counterexample :
    (neighborsMove 1 ((0 : ℤ), (0 : ℤ))).length ≠ (2 * 1 + 1) ^ 2 - 1 ∧
    ((0 : ℤ), (0 : ℤ)) ∈ neighborsMove 1 ((0 : ℤ), (0 : ℤ)) := by
  constructor
  · decide
  · decide

/-- Claim C4 (amended): the `contracted` candidate list has exactly
(2·1+1)² − 1 = 8 coordinates and excludes the centre; the `move_to_empty`
candidate list has (2r+1)² coordinates and INCLUDES the centre.  Neither is
clipped to the grid bounds: membership depends only on Chebyshev distance
from the centre, never on width or height. -/
theorem C4_amended :
    (∀ c : Coord, (neighborsContract c).length = 8 ∧ c ∉ neighborsContract c ∧
      (∀ a : Coord, a ∈ neighborsContract c ↔
        (c.1 - 1 ≤ a.1 ∧ a.1 ≤ c.1 + 1 ∧ c.2 - 1 ≤ a.2 ∧ a.2 ≤ c.2 + 1) ∧ a ≠ c)) ∧
    (∀ (r : Nat) (c : Coord),
      (neighborsMove r c).length = (2 * r + 1) * (2 * r + 1) ∧
      c ∈ neighborsMove r c ∧
      (∀ a : Coord, a ∈ neighborsMove r c ↔
        c.1 - r ≤ a.1 ∧ a.1 ≤ c.1 + r ∧ c.2 - r ≤ a.2 ∧ a.2 ≤ c.2 + r)) :=
  ⟨fun c => ⟨length_neighborsContract c, center_not_mem_neighborsContract c,
      fun _ => mem_neighborsContract⟩,
   fun r c => ⟨length_neighborsMove r c, center_mem_neighborsMove r c,
      fun _ => mem_neighborsMove⟩⟩

/-- Claim C5 (counterexample): with empty-ratio 2 (outside [0,1]) population
initialization does not fail — there is no ConfigurationError anywhere in
the code — it silently returns the state in which the entire grid is empty. -/
theorem C5_counterexample :
    populate pC5 (virusGrid pC5) =
      { healthy := [], infected := [], empty_spots := virusGrid pC5, deaths := 0 } := by
  have h1 : n_empty pC5 (virusGrid pC5) = 8 := by
    unfold n_empty
    rw [show (virusGrid pC5).length = 4 from rfl]
    norm_num [pC5, pyInt]
  have h2 : inhabited pC5 (virusGrid pC5) = [] := by
    unfold inhabited
    rw [h1]
    rfl
  have h3 : n_infected pC5 (virusGrid pC5) = 0 := by
    unfold n_infected
    rw [h2]
    norm_num [pC5, pyInt]
  have h4 : empty_spots_init pC5 (virusGrid pC5) = virusGrid pC5 := by
    unfold empty_spots_init
    rw [h1]
    rfl
  unfold populate
  rw [h2, h3, h4]
  rfl

/-- Claim C5 (amended): population initialization has NO error condition at
all: for every rational empty-ratio (inside or outside [0,1]) and every
grid list it totally partitions the grid into the empty set, the infected
keys and the healthy keys; no validation is performed and no
ConfigurationError exists in the code. -/
theorem C5_amended (p : Params) (shuffled : List Coord) :
    (populate p shuffled).empty_spots ++ keys (populate p shuffled).infected ++
      keys (populate p shuffled).healthy = shuffled := by
  unfold populate
  simp only [keys_map_zero]
  rw [List.append_assoc]
  rw [show pySliceTo (inhabited p shuffled) (n_infected p shuffled) ++
      pySliceFrom (inhabited p shuffled) (n_infected p shuffled) = inhabited p shuffled
    from pySlice_append _ _]
  exact pySlice_append shuffled (n_empty p shuffled)

/-- Claim C6 (counterexample): on a 10-cell grid with empty-ratio 1/4 the
combined population size is 10 − int(2.5) = 8, but (1 − 1/4)·10 = 7.5, so
the combined size equals neither (1−e)·w·h nor its floor 7: the code keeps
the CEILING of (1−e)·w·h, because only the empty count is truncated. -/
theorem C6_counterexample :
    (populate pC6 (virusGrid pC6)).healthy.length +
        (populate pC6 (virusGrid pC6)).infected.length = 8 ∧
    ¬ (((8 : ℚ)) = (1 - pC6.ratio_empty) * ((pC6.width : ℚ) * (pC6.height : ℚ))) ∧
    ¬ ((8 : ℤ) = ⌊(1 - pC6.ratio_empty) * ((pC6.width : ℚ) * (pC6.height : ℚ))⌋) := by
  have h1 : n_empty pC6 (virusGrid pC6) = 2 := by
    unfold n_empty
    rw [show (virusGrid pC6).length = 10 from rfl]
    norm_num [pC6, pyInt]
  have h2 : inhabited pC6 (virusGrid pC6) =
      [((0 : ℤ), (2 : ℤ)), (0, 3), (0, 4), (1, 0), (1, 1), (1, 2), (1, 3), (1, 4)] := by
    unfold inhabited
    rw [h1]
    rfl
  have h3 : n_infected pC6 (virusGrid pC6) = 4 := by
    unfold n_infected
    rw [h2]
    norm_num [pC6, pyInt]
  refine ⟨?_, ?_, ?_⟩
  · unfold populate
    rw [h2, h3]
    rfl
  · norm_num [pC6]
  · norm_num [pC6]

/-- Claim C6 (amended): the combined population size equals
`width*height − int(ratio_empty · width·height)` (the grid size minus the
truncated empty count — the ceiling of (1−e)·w·h, not its floor); the
infection model then gives the infected class exactly
`int(ratio_infected · |inhabited|)` agents (truncation) and the healthy
class the rest; the Schelling model splits the inhabited cells among the
races by round-robin striding `inhabited[i::num_races]`, NOT by ratio
truncation: with 5 inhabited cells and 2 races the race sizes are 3 and 2,
while truncation of the even share would give 2. -/
theorem C6_amended :
    (∀ (p : Params) (shuffled : List Coord),
      0 ≤ p.ratio_empty → 0 ≤ p.ratio_infected → p.ratio_infected ≤ 1 →
      (populate p shuffled).healthy.length + (populate p shuffled).infected.length
          = shuffled.length - (n_empty p shuffled).toNat ∧
      (populate p shuffled).infected.length = (n_infected p shuffled).toNat) ∧
    ((schellingPopulate (1/2) 2 (schellingGrid 5 2)).agents.length = 5 ∧
     ((schellingPopulate (1/2) 2 (schellingGrid 5 2)).agents.filter
        (fun kv => decide (kv.2 = 1))).length = 3 ∧
     ¬ ((3 : ℤ) = pyInt ((1 : ℚ)/2 * 5))) := by
  constructor
  · intro p shuffled h0e h0i h1i
    have hnE0 : 0 ≤ n_empty p shuffled :=
      pyInt_nonneg (mul_nonneg h0e (by positivity))
    have hnI0 : 0 ≤ n_infected p shuffled :=
      pyInt_nonneg (mul_nonneg h0i (by positivity))
    have hIlen : (inhabited p shuffled).length = shuffled.length - (n_empty p shuffled).toNat :=
      length_pySliceFrom_nonneg hnE0
    have hnIle : n_infected p shuffled ≤ ((inhabited p shuffled).length : ℤ) :=
      pyInt_mul_le h0i h1i
    have hsplit : (pySliceTo (inhabited p shuffled) (n_infected p shuffled)).length +
        (pySliceFrom (inhabited p shuffled) (n_infected p shuffled)).length
        = (inhabited p shuffled).length :=
      length_pySliceTo_add_length_pySliceFrom _ _
    have hinf : (pySliceTo (inhabited p shuffled) (n_infected p shuffled)).length
        = (n_infected p shuffled).toNat := by
      rw [length_pySliceTo_nonneg hnI0]
      have : (n_infected p shuffled).toNat ≤ (inhabited p shuffled).length := by omega
      exact Nat.min_eq_left this
    unfold populate
    simp only [List.length_map]
    omega
  · have h1 : pyInt ((1 : ℚ)/2 * ((schellingGrid 5 2).length : ℚ)) = 5 := by
      rw [show (schellingGrid 5 2).length = 10 from rfl]
      norm_num [pyInt]
    have h2 : schellingPopulate (1/2) 2 (schellingGrid 5 2) =
        { agents := dictOfPairs
            (dictOfPairs ((pyStride (pySliceFrom (schellingGrid 5 2) 5) 0 2).map
                (fun c => (c, 1))) ++
              dictOfPairs ((pyStride (pySliceFrom (schellingGrid 5 2) 5) 1 2).map
                (fun c => (c, 2)))),
          empty_houses := pySliceTo (schellingGrid 5 2) 5 } := by
      unfold schellingPopulate
      rw [h1]
      rfl
    rw [h2]
    refine ⟨by decide, by decide, by norm_num [pyInt]⟩

/-- Concrete inputs witnessing the amended claim C6. -/
theorem C6_witness :
    (populate pC6 (virusGrid pC6)).healthy.length +
        (populate pC6 (virusGrid pC6)).infected.length
      = (virusGrid pC6).length - (n_empty pC6 (virusGrid pC6)).toNat :=
  (C6_amended.1 pC6 (virusGrid pC6) (by norm_num [pC6]) (by norm_num [pC6])
    (by norm_num [pC6])).1

/-- Claim C2 (counterexample): when the infected agent at (0,0) dies, the
post-death state does NOT contain (0,0) in the empty set — the death branch
only deletes the agent from the infected mapping and counts the death. -/
theorem C2_counterexample :
    stepInfected pC2 1 0 (0, 0) sC2 =
      some { healthy := [], infected := [], empty_spots := [(0, 1)], deaths := 1 } ∧
    (0, 0) ∉ ({ healthy := [], infected := [], empty_spots := [(0, 1)],
                deaths := 1 } : VirusState).empty_spots := by
  constructor
  · decide
  · decide

/-- Claim C2 (amended): a death deletes the agent's entry from the infected
mapping and increments the death count, leaving the healthy mapping and the
empty set exactly unchanged: the coordinate is NOT added to the empty set
(it leaves all three collections, shrinking their union by one). -/
theorem C2_amended (p : Params) (roll : ℚ) (choice : Nat) (agent : Coord)
    (s : VirusState) (hroll : roll ≤ p.mortality) (hag : agent ∈ keys s.infected)
    (hnodup : (keys s.infected).Nodup) :
    stepInfected p roll choice agent s =
      some { s with infected := dictDel s.infected agent, deaths := s.deaths + 1 } ∧
    agent ∉ keys (dictDel s.infected agent) ∧
    ({ s with infected := dictDel s.infected agent,
              deaths := s.deaths + 1 } : VirusState).empty_spots = s.empty_spots := by
  refine ⟨?_, not_mem_keys_dictDel hnodup, rfl⟩
  unfold stepInfected
  rw [if_pos hroll]
  rw [show dictDel? s.infected agent = some (dictDel s.infected agent) from
    dictDel?_eq_some.mpr ⟨hag, rfl⟩]

/-- Concrete instance of the amended claim C2. -/
theorem C2_witness :
    stepInfected pC2 1 0 (0, 0) sC2 =
      some { sC2 with infected := dictDel sC2.infected (0, 0),
                      deaths := sC2.deaths + 1 } :=
  (C2_amended pC2 1 0 (0, 0) sC2 (by decide) (by decide) (by decide)).1

/-- Claim C8: the relocation rule of the infection model.  The candidate set
is the `max_range` neighbourhood intersected with the current empty set;
when it is empty the state is returned unchanged for both agent kinds (a
silent no-op); otherwise the chosen candidate is a member of the empty set,
the live agent's entry is re-keyed from its old coordinate to the chosen
one preserving its stored value, the old coordinate is appended to the
empty set and the chosen one removed from it. -/
theorem C8_relocation (r choice : Nat) (agent : Coord) (s : VirusState) :
    ((intersection (neighborsMove r agent) s.empty_spots = []) →
      ∀ inf : Bool, move_to_empty r choice agent inf s = some s) ∧
    (∀ hlen : 0 < (intersection (neighborsMove r agent) s.empty_spots).length,
      ∀ ns : Coord,
      (intersection (neighborsMove r agent) s.empty_spots).get
          ⟨choice % (intersection (neighborsMove r agent) s.empty_spots).length,
            Nat.mod_lt _ hlen⟩ = ns →
      ns ∈ s.empty_spots ∧
      (∀ v : Nat, dictGet? s.infected agent = some v → agent ∉ s.empty_spots →
        (keys s.infected).Nodup →
        move_to_empty r choice agent true s =
          some { s with infected := dictDel (dictSet s.infected ns v) agent,
                        empty_spots := pyRemove s.empty_spots ns ++ [agent] } ∧
        dictGet? (dictDel (dictSet s.infected ns v) agent) ns = some v ∧
        agent ∉ keys (dictDel (dictSet s.infected ns v) agent)) ∧
      (dictGet? s.healthy agent = some 0 → agent ∉ s.empty_spots →
        (keys s.healthy).Nodup →
        move_to_empty r choice agent false s =
          some { s with healthy := dictDel (dictSet s.healthy ns 0) agent,
                        empty_spots := pyRemove s.empty_spots ns ++ [agent] } ∧
        dictGet? (dictDel (dictSet s.healthy ns 0) agent) ns = some 0 ∧
        agent ∉ keys (dictDel (dictSet s.healthy ns 0) agent))) := by
  constructor
  · intro h _
    exact move_to_empty_noop h
  · intro hlen ns hns
    have hns_mem : ns ∈ s.empty_spots := by
      rw [← hns]
      exact (mem_intersection.mp (List.get_mem _ _ _)).1
    refine ⟨hns_mem, ?_, ?_⟩
    · intro v hget hag_ne hnodup
      have hns_ne : ns ≠ agent := fun he => hag_ne (he ▸ hns_mem)
      refine ⟨move_to_empty_eq_true hlen hns hget, ?_, ?_⟩
      · rw [dictGet?_dictDel_ne hns_ne, dictGet?_dictSet_self]
      · exact not_mem_keys_dictDel (nodup_keys_dictSet v hnodup)
    · intro hget hag_ne hnodup
      have hag : agent ∈ keys s.healthy := mem_keys_of_dictGet?_eq_some hget
      have hns_ne : ns ≠ agent := fun he => hag_ne (he ▸ hns_mem)
      have hag1 : agent ∈ keys (dictSet s.healthy ns 0) :=
        (mem_keys_dictSet 0).mpr (Or.inl hag)
      refine ⟨move_to_empty_eq_false hlen hns hag1, ?_, ?_⟩
      · rw [dictGet?_dictDel_ne hns_ne, dictGet?_dictSet_self]
      · exact not_mem_keys_dictDel (nodup_keys_dictSet 0 hnodup)

/-- Concrete instance of claim C8: the infected agent at (0,0) relocates to
the unique empty neighbour (1,1), keeping its day-count 5. -/
theorem C8_witness :
    move_to_empty 1 0 ((0 : ℤ), (0 : ℤ)) true sC8 =
      some { sC8 with
        infected := dictDel (dictSet sC8.infected (1, 1) 5) (0, 0),
        empty_spots := pyRemove sC8.empty_spots (1, 1) ++ [(0, 0)] } :=
  (((C8_relocation 1 0 (0, 0) sC8).2 (by decide) (1, 1) (by decide)).2.1 5
    (by decide) (by decide) (by decide)).1

/-- Claim C1: at initialization and across every update iteration the three
coordinate collections are pairwise disjoint (with no internal repetition)
and the sum of their sizes plus the cumulative death count equals
`width * height` — so the union's size is `width*height` minus the deaths
so far, every death shrinking it by exactly one and no other operation
changing it. -/
theorem C1_invariants :
    (∀ (p : Params) (shuffled : List Coord), shuffled.Perm (virusGrid p) →
      WF p (populate p shuffled) ∧ (populate p shuffled).deaths = 0) ∧
    (∀ (p : Params) (rolls : Nat → ℚ) (ci ch : Nat → Nat) (s s2 : VirusState),
      WF p s → iteration p rolls ci ch s = some s2 → WF p s2) :=
  ⟨fun _ _ hperm => populate_WF hperm,
   fun _ _ _ _ _ _ hwf h => iteration_WF hwf h⟩

/-- Concrete instance of claim C1: the invariant holds after initialization
and is preserved by a concrete update iteration. -/
theorem C1_witness : WF pC1 (populate pC1 (virusGrid pC1)) ∧ WF pC1 sC1f :=
  ⟨(C1_invariants.1 pC1 (virusGrid pC1) (List.Perm.refl _)).1,
   C1_invariants.2 pC1 (fun _ => 1) (fun _ => 0) (fun _ => 0) sC1 sC1f (by decide)
     (by decide)⟩

theorem schellingPhase_cons_none {tol : ℚ} {choices : Nat → Nat} {a : Coord}
    {rest : List Coord} {i : Nat} {sn : SchellingState × Nat}
    (h : schellingStep tol (choices i) a sn = none) :
    schellingPhase tol choices (a :: rest) i sn = none := by
  unfold schellingPhase
  rw [h]

theorem schellingPhase_cons_some {tol : ℚ} {choices : Nat → Nat} {a : Coord}
    {rest : List Coord} {i : Nat} {sn sn1 : SchellingState × Nat}
    (h : schellingStep tol (choices i) a sn = some sn1) :
    schellingPhase tol choices (a :: rest) i sn =
      schellingPhase tol choices rest (i + 1) sn1 := by
  conv_lhs => unfold schellingPhase
  rw [h]

theorem schellingStep_satisfied {tol : ℚ} {choice : Nat} {a : Coord}
    {sn : SchellingState × Nat}
    (h : is_unsatisfied tol sn.1 a.1 a.2 = some false) :
    schellingStep tol choice a sn = some sn := by
  unfold schellingStep
  rw [h]

theorem schellingStep_abort {tol : ℚ} {choice : Nat} {a : Coord}
    {sn : SchellingState × Nat}
    (h : is_unsatisfied tol sn.1 a.1 a.2 = some true)
    (h2 : schelling_move_to_empty choice a sn.1 = none) :
    schellingStep tol choice a sn = none := by
  unfold schellingStep
  rw [h, h2]

theorem schelling_move_none_of_empty {choice : Nat} {key : Coord}
    {s : SchellingState} (h : s.empty_houses = []) :
    schelling_move_to_empty choice key s = none := by
  have hlen : ¬ s.empty_houses.length > 0 := by
    rw [h]
    simp
  unfold schelling_move_to_empty
  cases hg : dictGet? s.agents key with
  | none => rfl
  | some race => exact dif_neg hlen

/-- Claim C10: in the Schelling model, if every house is occupied (the
empty-houses list is empty) and the iteration reaches an unsatisfied agent
(all agents before it in the snapshot being satisfied), the relocation's
`random.choice` over the empty list fails — an IndexError, modelled as
`none` — and the whole update iteration aborts instead of leaving the agent
in place. -/
theorem C10_no_vacancy_abort (tol : ℚ) (choices : Nat → Nat) (s : SchellingState)
    (pre post : List Coord) (a : Coord)
    (hkeys : keys s.agents = pre ++ a :: post)
    (hpre : ∀ b ∈ pre, is_unsatisfied tol s b.1 b.2 = some false)
    (ha : is_unsatisfied tol s a.1 a.2 = some true)
    (hempty : s.empty_houses = []) :
    schellingIter tol choices s = none := by
  unfold schellingIter
  rw [hkeys]
  suffices hsuff : ∀ (pre2 : List Coord) (i n : Nat),
      (∀ b ∈ pre2, is_unsatisfied tol s b.1 b.2 = some false) →
      schellingPhase tol choices (pre2 ++ a :: post) i (s, n) = none by
    exact hsuff pre 0 0 hpre
  intro pre2
  induction pre2 with
  | nil =>
    intro i n _
    rw [List.nil_append]
    exact schellingPhase_cons_none
      (schellingStep_abort ha (schelling_move_none_of_empty hempty))
  | cons b rest ih =>
    intro i n hpre2
    rw [List.cons_append]
    rw [schellingPhase_cons_some (schellingStep_satisfied
      (hpre2 b (List.mem_cons_self _ _)))]
    exact ih (i + 1) n (fun c hc => hpre2 c (List.mem_cons_of_mem _ hc))

theorem s10_unsatisfied : is_unsatisfied 1 s10 0 0 = some true := by
  have h0 : ((((0 : ℕ) : ℚ)) / (((0 : ℕ) : ℚ) + ((1 : ℕ) : ℚ)) < (1 : ℚ)) := by
    norm_num
  calc is_unsatisfied 1 s10 0 0
      = some (decide ((((0 : ℕ) : ℚ)) / (((0 : ℕ) : ℚ) + ((1 : ℕ) : ℚ)) < (1 : ℚ))) :=
        rfl
  _ = some true := by rw [decide_eq_true h0]

/-- Concrete instance of claim C10: with no vacant house, the first agent is
unsatisfied and the iteration aborts with an error. -/
theorem C10_witness : schellingIter 1 (fun _ => 0) s10 = none :=
  C10_no_vacancy_abort 1 (fun _ => 0) s10 [] [(0, 1)] (0, 0) rfl
    (fun b hb => absurd hb (List.not_mem_nil b)) s10_unsatisfied rfl

theorem contracted_of_empty {agent : Coord} {s : VirusState}
    (h : intersection (neighborsContract agent) (keys s.infected) = []) :
    contracted agent s = some (false, s) := by
  simp only [contracted]
  rw [h, if_neg (by simp : ¬ ([] : List Coord).length > 0)]

theorem contracted_of_nonempty {agent : Coord} {s : VirusState}
    (hlen : 0 < (intersection (neighborsContract agent) (keys s.infected)).length)
    (hag : agent ∈ keys s.healthy) :
    contracted agent s = some (true,
      { s with infected := dictSet s.infected agent 0,
               healthy := dictDel s.healthy agent }) := by
  simp only [contracted]
  rw [if_pos hlen]
  rw [show dictDel? s.healthy agent = some (dictDel s.healthy agent) from
    dictDel?_eq_some.mpr ⟨hag, rfl⟩]

theorem move_infected_persist {r choice : Nat} {agent : Coord} {inf : Bool}
    {s s2 : VirusState} {k : Coord}
    (hne : k ≠ agent) (hk : k ∈ keys s.infected)
    (h : move_to_empty r choice agent inf s = some s2) : k ∈ keys s2.infected := by
  rcases move_to_empty_inv h with ⟨_, rfl⟩ | ⟨hlen, ns, hns, hcase⟩
  · exact hk
  rcases hcase with ⟨_, v, hget, rfl⟩ | ⟨_, hd, hdel, rfl⟩
  · exact (mem_keys_dictDel_of_ne hne).mpr ((mem_keys_dictSet v).mpr (Or.inl hk))
  · exact hk

theorem stepHealthy_infected_persist {p : Params} {choice : Nat} {agent : Coord}
    {s s2 : VirusState} {k : Coord}
    (hne : agent ≠ k) (hk : k ∈ keys s.infected)
    (h : stepHealthy p choice agent s = some s2) : k ∈ keys s2.infected := by
  unfold stepHealthy at h
  split at h
  next heq => cases h
  next s1 heq =>
    rcases contracted_inv heq with ⟨_, _, _, rfl⟩ | ⟨hfalse, _, _⟩
    · exact move_infected_persist (Ne.symm hne)
        ((mem_keys_dictSet 0).mpr (Or.inl hk)) h
    · exact Bool.noConfusion hfalse
  next s1 heq =>
    rcases contracted_inv heq with ⟨hfalse, _, _⟩ | ⟨_, _, rfl⟩
    · exact Bool.noConfusion hfalse.symm
    · exact move_infected_persist (Ne.symm hne) hk h

theorem healthyPhase_infected_persist {p : Params} {ch : Nat → Nat} :
    ∀ {l : List Coord} {i : Nat} {s s2 : VirusState} {k : Coord},
    (∀ b ∈ l, b ≠ k) → k ∈ keys s.infected →
    healthyPhase p ch l i s = some s2 → k ∈ keys s2.infected := by
  intro l
  induction l with
  | nil =>
    intro i s s2 k _ hk h
    unfold healthyPhase at h
    injection h with h
    exact h ▸ hk
  | cons a rest ih =>
    intro i s s2 k hne hk h
    unfold healthyPhase at h
    split at h
    next heq => cases h
    next s1 heq =>
      exact ih (fun b hb => hne b (List.mem_cons_of_mem _ hb))
        (stepHealthy_infected_persist (hne a (List.mem_cons_self _ _)) hk heq) h

theorem move_healthy_persist {r choice : Nat} {agent : Coord} {inf : Bool}
    {s s2 : VirusState} {a : Coord}
    (hne : a ≠ agent) (hna : a ∉ s.empty_spots) (ha : a ∈ keys s.healthy)
    (h : move_to_empty r choice agent inf s = some s2) : a ∈ keys s2.healthy := by
  rcases move_to_empty_inv h with ⟨_, rfl⟩ | ⟨hlen, ns, hns, hcase⟩
  · exact ha
  have hns_mem : ns ∈ s.empty_spots := by
    rw [← hns]
    exact (mem_intersection.mp (List.get_mem _ _ _)).1
  have hans : a ≠ ns := fun he => hna (he ▸ hns_mem)
  rcases hcase with ⟨_, v, hget, rfl⟩ | ⟨_, hd, hdel, rfl⟩
  · exact ha
  · obtain ⟨_, rfl⟩ := dictDel?_eq_some.mp hdel
    exact (mem_keys_dictDel_of_ne hne).mpr ((mem_keys_dictSet 0).mpr (Or.inl ha))

theorem stepHealthy_healthy_persist {p : Params} {choice : Nat} {agent : Coord}
    {s s2 : VirusState} {a : Coord}
    (hwf : WF p s) (hne : a ≠ agent) (ha : a ∈ keys s.healthy)
    (h : stepHealthy p choice agent s = some s2) : a ∈ keys s2.healthy := by
  obtain ⟨hnh, hni, hne2, hdhi, hdhe, hdie, hsum⟩ := hwf
  have hna : a ∉ s.empty_spots := hdhe a ha
  unfold stepHealthy at h
  split at h
  next heq => cases h
  next s1 heq =>
    rcases contracted_inv heq with ⟨_, _, hag, rfl⟩ | ⟨hfalse, _, _⟩
    · refine move_healthy_persist hne ?_ ?_ h
      · exact hna
      · exact (mem_keys_dictDel_of_ne hne).mpr ha
    · exact Bool.noConfusion hfalse
  next s1 heq =>
    rcases contracted_inv heq with ⟨hfalse, _, _⟩ | ⟨_, _, rfl⟩
    · exact Bool.noConfusion hfalse.symm
    · exact move_healthy_persist hne hna ha h

theorem healthyPhase_prefix_invariant {p : Params} {ch : Nat → Nat} :
    ∀ {l : List Coord} {i : Nat} {s s2 : VirusState} {a : Coord},
    WF p s → a ∉ l → a ∈ keys s.healthy →
    healthyPhase p ch l i s = some s2 → WF p s2 ∧ a ∈ keys s2.healthy := by
  intro l
  induction l with
  | nil =>
    intro i s s2 a hwf _ ha h
    unfold healthyPhase at h
    injection h with h
    exact ⟨h ▸ hwf, h ▸ ha⟩
  | cons b rest ih =>
    intro i s s2 a hwf hnl ha h
    unfold healthyPhase at h
    split at h
    next heq => cases h
    next s1 heq =>
      have hab : a ≠ b := fun he => hnl (he ▸ List.mem_cons_self _ _)
      exact ih (stepHealthy_WF hwf heq) (fun hm => hnl (List.mem_cons_of_mem _ hm))
        (stepHealthy_healthy_persist hwf hab ha heq) h

/-- Claim C7: during the healthy loop of an update iteration, a snapshot
agent `a` whose radius-1 neighbourhood meets the infected mapping as it
stands at the START of the healthy loop (i.e. after the infected agents of
the iteration have been processed) is converted when its turn comes: the
keys of that infected mapping persist through the processing of the agents
before `a`, `contracted` fires, `a` is entered into the infected mapping at
day-count 0 and removed from the healthy mapping.  Conversely an agent
whose neighbourhood meets no infected coordinate at its turn is left
exactly in place by `contracted` (it stays healthy). -/
theorem C7_contraction :
    (∀ (p : Params) (ch : Nat → Nat) (s0 smid : VirusState) (pre : List Coord)
        (a : Coord),
      WF p s0 → a ∈ keys s0.healthy → a ∉ pre →
      (∀ b ∈ pre, b ∉ keys s0.infected) →
      healthyPhase p ch pre 0 s0 = some smid →
      (∃ k ∈ keys s0.infected, k ∈ neighborsContract a) →
      (∀ k ∈ keys s0.infected, k ∈ keys smid.infected) ∧
      ∃ sc, contracted a smid = some (true, sc) ∧
        dictGet? sc.infected a = some 0 ∧ a ∉ keys sc.healthy) ∧
    (∀ (s : VirusState) (a : Coord),
      intersection (neighborsContract a) (keys s.infected) = [] →
      contracted a s = some (false, s)) := by
  constructor
  · intro p ch s0 smid pre a hwf ha hapre hpreinf hphase hex
    have hpersist : ∀ k ∈ keys s0.infected, k ∈ keys smid.infected := by
      intro k hk
      exact healthyPhase_infected_persist
        (fun b hb he => hpreinf b hb (he ▸ hk)) hk hphase
    obtain ⟨hwfmid, hamid⟩ := healthyPhase_prefix_invariant hwf hapre ha hphase
    obtain ⟨k, hk, hkn⟩ := hex
    have hkmid : k ∈ keys smid.infected := hpersist k hk
    have hlen : 0 < (intersection (neighborsContract a) (keys smid.infected)).length := by
      have hmem : k ∈ intersection (neighborsContract a) (keys smid.infected) :=
        mem_intersection.mpr ⟨hkmid, hkn⟩
      exact List.length_pos.mpr (List.ne_nil_of_mem hmem)
    exact ⟨hpersist, _, contracted_of_nonempty hlen hamid,
      dictGet?_dictSet_self a 0, not_mem_keys_dictDel hwfmid.1⟩
  · intro s a h
    exact contracted_of_empty h

/-- Concrete instance of claim C7: the healthy agent adjacent to an infected
one converts at day-count 0; with no infected neighbour the state is
unchanged. -/
theorem C7_witness :
    dictGet? s7c.infected (0, 0) = some 0 ∧
    contracted (0, 0) s7e = some (false, s7e) := by
  constructor
  · obtain ⟨hpers, sc, hc, hget, hnm⟩ :=
      C7_contraction.1 p7 (fun _ => 0) s7 s7 [] (0, 0) (by decide) (by decide)
        (by decide) (by decide) rfl ⟨(1, 1), by decide, by decide⟩
    have hconc : contracted (0, 0) s7 = some (true, s7c) := by decide
    have hsc : sc = s7c := by
      have h2 := hc.symm.trans hconc
      injection h2 with h2
      exact congrArg Prod.snd h2
    rw [hsc] at hget
    exact hget
  · exact C7_contraction.2 s7e (0, 0) (by decide)

theorem infectedPhase_all_die {p : Params} (rolls : Nat → ℚ) (ci : Nat → Nat)
    (hm : p.mortality = 1) (hroll : ∀ j, rolls j ≤ 1) :
    ∀ (d : Dict) (i : Nat) (s : VirusState), s.infected = d →
    infectedPhase p rolls ci (keys d) i s =
      some { s with infected := [], deaths := s.deaths + d.length } := by
  intro d
  induction d with
  | nil =>
    intro i s hs
    obtain ⟨sh, si, se, sd⟩ := s
    simp only at hs
    subst hs
    unfold infectedPhase
    rfl
  | cons kv rest ih =>
    intro i s hs
    obtain ⟨k, v⟩ := kv
    have hstep : stepInfected p (rolls i) (ci i) k s =
        some { s with infected := rest, deaths := s.deaths + 1 } := by
      unfold stepInfected
      rw [if_pos (by rw [hm]; exact hroll i)]
      rw [show dictDel? s.infected k = some rest by
        rw [hs]
        exact dictDel?_eq_some.mpr ⟨mem_keys_cons.mpr (Or.inl rfl),
          dictDel_cons_self.symm⟩]
    rw [show keys ((k, v) :: rest) = k :: keys rest from rfl]
    unfold infectedPhase
    rw [hstep]
    show infectedPhase p rolls ci (keys rest) (i + 1)
        { s with infected := rest, deaths := s.deaths + 1 } = _
    rw [ih (i + 1) { s with infected := rest, deaths := s.deaths + 1 } rfl]
    rw [show s.deaths + 1 + rest.length = s.deaths + ((k, v) :: rest).length from by
      rw [List.length_cons]
      omega]

theorem healthyPhase_no_infected {p : Params} {ch : Nat → Nat} :
    ∀ (l : List Coord) (i : Nat) (s : VirusState),
    WF p s → (∀ b ∈ l, b ∈ keys s.healthy) → l.Nodup → s.infected = [] →
    ∃ s2, healthyPhase p ch l i s = some s2 ∧ WF p s2 ∧ s2.infected = [] ∧
      s2.healthy.length = s.healthy.length ∧ s2.deaths = s.deaths := by
  intro l
  induction l with
  | nil =>
    intro i s hwf _ _ hinf
    exact ⟨s, rfl, hwf, hinf, rfl, rfl⟩
  | cons a rest ih =>
    intro i s hwf hmem hnodup hinf
    have hcontr : contracted a s = some (false, s) :=
      contracted_of_empty (by rw [hinf]; rfl)
    rcases List.nodup_cons.mp hnodup with ⟨hanr, hnodup2⟩
    have hamem : a ∈ keys s.healthy := hmem a (List.mem_cons_self _ _)
    by_cases hc : intersection (neighborsMove p.max_range a) s.empty_spots = []
    · have hstep : stepHealthy p (ch i) a s = some s := by
        unfold stepHealthy
        rw [hcontr]
        exact move_to_empty_noop hc
      obtain ⟨s2, h1, h2, h3, h4, h5⟩ := ih (i + 1) s hwf
        (fun b hb => hmem b (List.mem_cons_of_mem _ hb)) hnodup2 hinf
      refine ⟨s2, ?_, h2, h3, h4, h5⟩
      unfold healthyPhase
      rw [hstep]
      exact h1
    · have hlen : 0 < (intersection (neighborsMove p.max_range a) s.empty_spots).length :=
        List.length_pos.mpr hc
      have hwf2 := hwf
      obtain ⟨hnh, hni, hne, hdhi, hdhe, hdie, hsum⟩ := hwf2
      set ns := (intersection (neighborsMove p.max_range a) s.empty_spots).get
        ⟨(ch i) % (intersection (neighborsMove p.max_range a) s.empty_spots).length,
          Nat.mod_lt _ hlen⟩ with hnsdef
      have hns_mem : ns ∈ s.empty_spots :=
        (mem_intersection.mp (List.get_mem _ _ _)).1
      have hns_nh : ns ∉ keys s.healthy := fun hcon => hdhe ns hcon hns_mem
      have hag1 : a ∈ keys (dictSet s.healthy ns 0) :=
        (mem_keys_dictSet 0).mpr (Or.inl hamem)
      have hmv := move_to_empty_eq_false hlen hnsdef.symm hag1
      have hstep : stepHealthy p (ch i) a s =
          some { s with healthy := dictDel (dictSet s.healthy ns 0) a,
                        empty_spots := pyRemove s.empty_spots ns ++ [a] } := by
        unfold stepHealthy
        rw [hcontr]
        exact hmv
      have hwf1 := stepHealthy_WF hwf hstep
      have hlen1 : (dictDel (dictSet s.healthy ns 0) a).length = s.healthy.length := by
        have hset := length_dictSet_of_not_mem 0 hns_nh
        have hdel := length_dictDel_of_mem hag1
        omega
      obtain ⟨s2, h1, h2, h3, h4, h5⟩ := ih (i + 1)
        { s with healthy := dictDel (dictSet s.healthy ns 0) a,
                 empty_spots := pyRemove s.empty_spots ns ++ [a] }
        hwf1
        (by
          intro b hb
          have hba : b ≠ a := fun he => hanr (he ▸ hb)
          exact (mem_keys_dictDel_of_ne hba).mpr
            ((mem_keys_dictSet 0).mpr (Or.inl (hmem b (List.mem_cons_of_mem _ hb)))))
        hnodup2 hinf
      refine ⟨s2, ?_, h2, h3, ?_, h5⟩
      · unfold healthyPhase
        rw [hstep]
        exact h1
      · rw [h4]
        exact hlen1

/-- Claim C9: with mortality 1.0 and at least one infected agent, for every
sequence of random draws (all of `random.random()`'s values are at most 1)
the update loop executes exactly one iteration: every infected snapshot
agent dies during the infected loop (before any contraction check), the
infected mapping is empty afterwards, no healthy agent becomes infected
(their count is unchanged), the death count grows by exactly the initial
infected count, and the loop then stops. -/
theorem C9_extinction (p : Params) (rolls : Nat → Nat → ℚ) (ci ch : Nat → Nat → Nat)
    (s : VirusState) (k : Nat)
    (hm : p.mortality = 1) (hroll : ∀ j, rolls 0 j ≤ 1) (hwf : WF p s)
    (hiter : p.num_iter = k + 1) (hinf : s.infected ≠ []) :
    (update p rolls ci ch s).isSome = true ∧
    (∀ s2 n, update p rolls ci ch s = some (s2, n) →
      n = 1 ∧ s2.infected = [] ∧ s2.healthy.length = s.healthy.length ∧
      s2.deaths = s.deaths + s.infected.length) := by
  have hphase1 := infectedPhase_all_die (rolls 0) (ci 0) hm hroll s.infected 0 s rfl
  have hwf2 := hwf
  obtain ⟨hnh, hni, hne, hdhi, hdhe, hdie, hsum⟩ := hwf2
  have hwf1 : WF p { s with infected := ([] : Dict), deaths := s.deaths + s.infected.length } := by
    refine ⟨hnh, by exact List.nodup_nil, hne, ?_, hdhe, ?_, ?_⟩
    · intro c hc hc2
      cases hc2
    · intro c hc
      cases hc
    · simp only [List.length_nil]
      have := length_keys s.infected
      omega
  obtain ⟨s2, hph2, hwf2b, hinf2, hlen2, hdeath2⟩ :=
    healthyPhase_no_infected (keys s.healthy) 0
      { s with infected := [], deaths := s.deaths + s.infected.length }
      hwf1 (fun b hb => hb) hnh rfl
  have hiter_eq : iteration p (rolls 0) (ci 0) (ch 0) s = some s2 := by
    unfold iteration
    rw [hphase1]
    exact hph2
  have hupdate : update p rolls ci ch s = some (s2, 1) := by
    unfold update
    rw [hiter]
    unfold updateLoop
    rw [hiter_eq]
    have hcond : keys s2.infected = [] := by
      rw [hinf2]
      rfl
    show (if keys s2.infected = [] then some (s2, 0 + 1)
      else updateLoop p rolls ci ch k (0 + 1) s2) = some (s2, 1)
    rw [if_pos hcond]
  refine ⟨by rw [hupdate]; rfl, ?_⟩
  intro s2b n h
  rw [hupdate] at h
  injection h with h
  injection h with h1 h2
  subst h1
  subst h2
  exact ⟨rfl, hinf2, hlen2, hdeath2⟩

/-- Concrete instance of claim C9: the update halts after one iteration. -/
theorem C9_witness :
    (update p9 (fun _ _ => 1) (fun _ _ => 0) (fun _ _ => 0) s9).isSome = true :=
  (C9_extinction p9 (fun _ _ => 1) (fun _ _ => 0) (fun _ _ => 0) s9 2 rfl
    (fun _ => le_refl 1) (by decide) rfl (by decide)).1
